import Mathlib

/-!
Verification of the metrology core (record parser and statistical
aggregation engine) against its specification.

Modelling conventions:
* `f64` values are modelled by the type `F` below: an IEEE-754 double is
  either NaN, +Infinity, -Infinity, or a finite value, modelled as an exact
  rational.  All comparisons in the source are order comparisons, modelled
  exactly (any comparison involving NaN is false, as in IEEE-754).
  Floating-point rounding of arithmetic is abstracted: finite values are
  exact rationals.  No claim below depends on floating-point rounding error.
* `usize`/`u64`/`u32` are modelled by `Nat`; the one place where the source
  can underflow a `usize` (`the_everything`) is modelled explicitly, with
  `none` standing for the abort (debug: subtract-with-overflow panic;
  release: the wrapped index is out of bounds and the subsequent indexing
  panics).
* The source iterates with mutable state; loops are modelled as recursive
  functions over the input list carrying an explicit state record.
-/

/-- Model of an `f64` value: NaN, +Infinity, -Infinity, or a finite value
(an exact rational). -/
inductive F where
  | nan : F
  | inf : F
  | ninf : F
  | fin : ℚ → F
deriving DecidableEq, Repr

namespace F

/-- IEEE-754 `<` on doubles: false whenever either side is NaN. -/
def lt : F → F → Bool
  | nan, _ => false
  | _, nan => false
  | ninf, ninf => false
  | ninf, _ => true
  | _, ninf => false
  | inf, _ => false
  | fin _, inf => true
  | fin a, fin b => decide (a < b)

/-- IEEE-754 `<=` on doubles: false whenever either side is NaN. -/
def le : F → F → Bool
  | nan, _ => false
  | _, nan => false
  | ninf, _ => true
  | _, ninf => false
  | _, inf => true
  | inf, _ => false
  | fin a, fin b => decide (a ≤ b)

/-- Rust `f64::is_finite`: true exactly for non-NaN, non-infinite values. -/
def isFinite : F → Bool
  | fin _ => true
  | _ => false

/-- The rational value of a finite double (junk value 0 on non-finite input;
only applied to finite values). -/
def toRat : F → ℚ
  | fin q => q
  | _ => 0

end F

/-- One measurement record, source struct `DataLine` (parsing.rs): a fixed
six-field tuple of doubles. -/
structure DataLine where
  time : F
  area : F
  speed : F
  midline : F
  x : F
  y : F
deriving DecidableEq, Repr

/-- Median-of-5 network, source fn `median5` (lib.rs lines 37-51).  The
network sorts the pairs `(input 0, input 1)` and `(input 2, input 3)`,
forms the larger of the two pair-minima and the smaller of the two
pair-maxima, sorts those, and clamps `input 4` between them.  Within the
program the buffer always holds finite doubles, so the element type is the
exact rational model. -/
def median5 (input : Fin 5 → ℚ) : ℚ :=
  let a0 := input 0
  let b0 := input 1
  let a1 := if a0 > b0 then b0 else a0
  let b1 := if a0 > b0 then a0 else b0
  let c0 := input 2
  let d0 := input 3
  let c1 := if c0 > d0 then d0 else c0
  let d1 := if c0 > d0 then c0 else d0
  let a2 := if a1 < c1 then c1 else a1
  let b2 := if b1 > d1 then d1 else b1
  let a3 := if a2 > b2 then b2 else a2
  let b3 := if a2 > b2 then a2 else b2
  if input 4 ≤ a3 then a3
  else if input 4 ≥ b3 then b3
  else input 4

/-- Rust `f64::round`: round to nearest integer, ties away from zero. -/
def roundAway (q : ℚ) : ℤ :=
  if 0 ≤ q then ⌊q + 1 / 2⌋ else -⌊-q + 1 / 2⌋

/-- Source fn `r6` (lib.rs lines 53-61): magnitude-dependent rounding.
`(value*1e6).round()/1e6` on the middle branch and `(value*1e8).round()/1e8`
on the small branch, exact in the rational model.  NaN and infinities fall
through every branch guard (IEEE comparisons with NaN are false; infinite
magnitudes are not `< 1e12`) and are returned unchanged. -/
def r6 : F → F
  | F.fin q =>
      if |q| < 10 ^ 12 then
        if |q| ≥ 1 / 10 ^ 2 then F.fin ((roundAway (q * 10 ^ 6) : ℚ) / 10 ^ 6)
        else if |q| ≥ 1 / 10 ^ 4 then F.fin ((roundAway (q * 10 ^ 8) : ℚ) / 10 ^ 8)
        else F.fin q
      else F.fin q
  | v => v

/-- The naive sort-and-pick-middle reference of the specification: sort the
list (insertion sort, the naive quadratic sort) and take the element at
index 2.  Defined for the rational model of finite doubles, for which the
order is total. -/
def sortedMiddle (l : List ℚ) : ℚ :=
  (List.insertionSort (· ≤ ·) l).getD 2 0

example : sortedMiddle [3, 1, 4, 1, 5] = 3 := by decide
example : median5 ![1, 2, 3, 4, 5] = 3 := by decide
example : median5 ![5, 4, 3, 2, 1] = 3 := by decide
example : median5 ![2, 2, 2, 2, 2] = 2 := by decide

/-- The list of the five buffer entries in index order. -/
def listOf (v : Fin 5 → ℚ) : List ℚ := [v 0, v 1, v 2, v 3, v 4]

/-- The larger of the two pair-minima computed by the median network. -/
def lowSel (v : Fin 5 → ℚ) : ℚ := max (min (v 2) (v 3)) (min (v 0) (v 1))

/-- The smaller of the two pair-maxima computed by the median network. -/
def highSel (v : Fin 5 → ℚ) : ℚ := min (max (v 0) (v 1)) (max (v 2) (v 3))

lemma if_flip_lt (x y : ℚ) : (if x > y then y else x) = min x y := by
  split_ifs with h <;> simp [min_def] <;> split_ifs <;> first | rfl | linarith

lemma if_flip_gt (x y : ℚ) : (if x > y then x else y) = max x y := by
  split_ifs with h <;> simp [max_def] <;> split_ifs <;> first | rfl | linarith

lemma if_raise (x y : ℚ) : (if x < y then y else x) = max x y := by
  split_ifs with h <;> simp [max_def] <;> split_ifs <;> first | rfl | linarith

lemma clamp_eq (lo hi e : ℚ) (h : lo ≤ hi) :
    (if e ≤ lo then lo else if e ≥ hi then hi else e) = max lo (min e hi) := by
  split_ifs with h1 h2 <;> simp [max_def, min_def] <;> split_ifs <;>
    first | rfl | linarith

/-- The median network computes the clamp of the fifth input between the
larger pair-minimum and the smaller pair-maximum. -/
lemma median5_formula (v : Fin 5 → ℚ) :
    median5 v
      = max (min (lowSel v) (highSel v)) (min (v 4) (max (lowSel v) (highSel v))) := by
  simp only [median5, if_flip_lt, if_flip_gt]
  rw [clamp_eq _ _ _ min_le_max]
  rfl

/-- Sorted middle of a 5-element multiset: any value with at least three
elements at or below it and at least three at or above it is the middle
element of the sorted arrangement. -/
lemma sortedMiddle_eq_of_counts (l : List ℚ) (x : ℚ) (h5 : l.length = 5)
    (hle : 3 ≤ l.countP (fun y => decide (y ≤ x)))
    (hge : 3 ≤ l.countP (fun y => decide (x ≤ y))) :
    sortedMiddle l = x := by
  have hperm : (List.insertionSort (· ≤ ·) l).Perm l := List.perm_insertionSort _ l
  have hsorted : List.Sorted (· ≤ ·) (List.insertionSort (· ≤ ·) l) :=
    List.sorted_insertionSort _ l
  have hlen : (List.insertionSort (· ≤ ·) l).length = 5 := hperm.length_eq.trans h5
  have hle' : 3 ≤ (List.insertionSort (· ≤ ·) l).countP (fun y => decide (y ≤ x)) := by
    rw [hperm.countP_eq]; exact hle
  have hge' : 3 ≤ (List.insertionSort (· ≤ ·) l).countP (fun y => decide (x ≤ y)) := by
    rw [hperm.countP_eq]; exact hge
  rw [sortedMiddle]
  rcases hs : List.insertionSort (· ≤ ·) l with _ | ⟨y0, _ | ⟨y1, _ | ⟨y2, _ | ⟨y3, _ | ⟨y4, _ | ⟨y5, tl⟩⟩⟩⟩⟩⟩ <;>
    rw [hs] at hlen <;> simp at hlen
  rw [hs] at hsorted hle' hge'
  simp only [List.sorted_cons, List.mem_cons, List.not_mem_nil] at hsorted
  obtain ⟨hc0, hc1, hc2, hc3, -⟩ := hsorted
  have h01 : y0 ≤ y1 := hc0 y1 (by tauto)
  have h12 : y1 ≤ y2 := hc1 y2 (by tauto)
  have h23 : y2 ≤ y3 := hc2 y3 (by tauto)
  have h34 : y3 ≤ y4 := hc3 y4 (by tauto)
  simp only [List.countP_cons, List.countP_nil, decide_eq_true_eq] at hle' hge'
  show y2 = x
  by_contra hne
  rcases lt_or_gt_of_ne hne with h | h
  · have n0 : ¬(x ≤ y0) := by linarith
    have n1 : ¬(x ≤ y1) := by linarith
    have n2 : ¬(x ≤ y2) := by linarith
    rw [if_neg n0, if_neg n1, if_neg n2] at hge'
    split_ifs at hge' <;> omega
  · have n2 : ¬(y2 ≤ x) := by linarith
    have n3 : ¬(y3 ≤ x) := by linarith
    have n4 : ¬(y4 ≤ x) := by linarith
    rw [if_neg n2, if_neg n3, if_neg n4] at hle'
    split_ifs at hle' <;> omega

/-- Three distinct indices satisfying the predicate give a count of at
least three over the five buffer entries. -/
lemma three_counted (p : ℚ → Bool) (v : Fin 5 → ℚ) (i j k : Fin 5)
    (hij : i ≠ j) (hik : i ≠ k) (hjk : j ≠ k)
    (hi : p (v i) = true) (hj : p (v j) = true) (hk : p (v k) = true) :
    3 ≤ (listOf v).countP p := by
  fin_cases i <;> fin_cases j <;> fin_cases k <;>
    simp_all [listOf, List.countP_cons] <;> split_ifs <;> omega

/-- At least three of the five inputs are at or above the network output. -/
lemma med5_exists_three_ge (v : Fin 5 → ℚ) :
    ∃ i j k : Fin 5, i ≠ j ∧ i ≠ k ∧ j ≠ k ∧
      median5 v ≤ v i ∧ median5 v ≤ v j ∧ median5 v ≤ v k := by
  rw [median5_formula]
  simp only [lowSel, highSel]
  have h1 := min_le_left (v 2) (v 3)
  have h2 := min_le_right (v 2) (v 3)
  have h3 := min_le_left (v 0) (v 1)
  have h4 := min_le_right (v 0) (v 1)
  have h9 := min_le_left (max (min (v 2) (v 3)) (min (v 0) (v 1)))
    (min (max (v 0) (v 1)) (max (v 2) (v 3)))
  have h10 := min_le_right (max (min (v 2) (v 3)) (min (v 0) (v 1)))
    (min (max (v 0) (v 1)) (max (v 2) (v 3)))
  have h13 := min_le_left (max (v 0) (v 1)) (max (v 2) (v 3))
  have h14 := min_le_right (max (v 0) (v 1)) (max (v 2) (v 3))
  have hO1 := min_le_left (v 4)
    (max (max (min (v 2) (v 3)) (min (v 0) (v 1))) (min (max (v 0) (v 1)) (max (v 2) (v 3))))
  have hO2 := min_le_right (v 4)
    (max (max (min (v 2) (v 3)) (min (v 0) (v 1))) (min (max (v 0) (v 1)) (max (v 2) (v 3))))
  rcases max_choice
      (min (max (min (v 2) (v 3)) (min (v 0) (v 1))) (min (max (v 0) (v 1)) (max (v 2) (v 3))))
      (min (v 4)
        (max (max (min (v 2) (v 3)) (min (v 0) (v 1))) (min (max (v 0) (v 1)) (max (v 2) (v 3)))))
      with ho | ho
  · rcases max_choice (min (v 2) (v 3)) (min (v 0) (v 1)) with hA | hA
    · rcases max_choice (v 0) (v 1) with hm | hm
      · exact ⟨2, 3, 0, by decide, by decide, by decide, by linarith, by linarith, by linarith⟩
      · exact ⟨2, 3, 1, by decide, by decide, by decide, by linarith, by linarith, by linarith⟩
    · rcases max_choice (v 2) (v 3) with hm | hm
      · exact ⟨0, 1, 2, by decide, by decide, by decide, by linarith, by linarith, by linarith⟩
      · exact ⟨0, 1, 3, by decide, by decide, by decide, by linarith, by linarith, by linarith⟩
  · rcases max_choice (max (min (v 2) (v 3)) (min (v 0) (v 1)))
        (min (max (v 0) (v 1)) (max (v 2) (v 3))) with hM | hM
    · rcases max_choice (min (v 2) (v 3)) (min (v 0) (v 1)) with hA | hA
      · exact ⟨2, 3, 4, by decide, by decide, by decide, by linarith, by linarith, by linarith⟩
      · exact ⟨0, 1, 4, by decide, by decide, by decide, by linarith, by linarith, by linarith⟩
    · rcases max_choice (v 0) (v 1) with hm | hm
      · rcases max_choice (v 2) (v 3) with hn | hn
        · exact ⟨0, 2, 4, by decide, by decide, by decide, by linarith, by linarith, by linarith⟩
        · exact ⟨0, 3, 4, by decide, by decide, by decide, by linarith, by linarith, by linarith⟩
      · rcases max_choice (v 2) (v 3) with hn | hn
        · exact ⟨1, 2, 4, by decide, by decide, by decide, by linarith, by linarith, by linarith⟩
        · exact ⟨1, 3, 4, by decide, by decide, by decide, by linarith, by linarith, by linarith⟩

/-- At least three of the five inputs are at or below the network output. -/
lemma med5_exists_three_le (v : Fin 5 → ℚ) :
    ∃ i j k : Fin 5, i ≠ j ∧ i ≠ k ∧ j ≠ k ∧
      v i ≤ median5 v ∧ v j ≤ median5 v ∧ v k ≤ median5 v := by
  rw [median5_formula]
  simp only [lowSel, highSel]
  have hA1 := le_max_left (min (v 2) (v 3)) (min (v 0) (v 1))
  have hA2 := le_max_right (min (v 2) (v 3)) (min (v 0) (v 1))
  have hB1 := le_max_left (v 0) (v 1)
  have hB2 := le_max_right (v 0) (v 1)
  have hB3 := le_max_left (v 2) (v 3)
  have hB4 := le_max_right (v 2) (v 3)
  have hAB := le_max_left (max (min (v 2) (v 3)) (min (v 0) (v 1)))
    (min (max (v 0) (v 1)) (max (v 2) (v 3)))
  have hBB := le_max_right (max (min (v 2) (v 3)) (min (v 0) (v 1)))
    (min (max (v 0) (v 1)) (max (v 2) (v 3)))
  have hG1 := le_max_left
    (min (max (min (v 2) (v 3)) (min (v 0) (v 1))) (min (max (v 0) (v 1)) (max (v 2) (v 3))))
    (min (v 4)
      (max (max (min (v 2) (v 3)) (min (v 0) (v 1))) (min (max (v 0) (v 1)) (max (v 2) (v 3)))))
  have hG2 := le_max_right
    (min (max (min (v 2) (v 3)) (min (v 0) (v 1))) (min (max (v 0) (v 1)) (max (v 2) (v 3))))
    (min (v 4)
      (max (max (min (v 2) (v 3)) (min (v 0) (v 1))) (min (max (v 0) (v 1)) (max (v 2) (v 3)))))
  rcases min_choice (max (min (v 2) (v 3)) (min (v 0) (v 1)))
      (min (max (v 0) (v 1)) (max (v 2) (v 3))) with hm | hm
  · rcases min_choice (v 2) (v 3) with hp | hp <;>
      rcases min_choice (v 0) (v 1) with hq | hq <;>
      rcases min_choice (v 4)
        (max (max (min (v 2) (v 3)) (min (v 0) (v 1)))
          (min (max (v 0) (v 1)) (max (v 2) (v 3)))) with hr | hr
    · exact ⟨2, 0, 4, by decide, by decide, by decide, by linarith, by linarith, by linarith⟩
    · rcases min_choice (max (v 0) (v 1)) (max (v 2) (v 3)) with hs | hs
      · exact ⟨2, 0, 1, by decide, by decide, by decide, by linarith, by linarith, by linarith⟩
      · exact ⟨0, 2, 3, by decide, by decide, by decide, by linarith, by linarith, by linarith⟩
    · exact ⟨2, 1, 4, by decide, by decide, by decide, by linarith, by linarith, by linarith⟩
    · rcases min_choice (max (v 0) (v 1)) (max (v 2) (v 3)) with hs | hs
      · exact ⟨2, 0, 1, by decide, by decide, by decide, by linarith, by linarith, by linarith⟩
      · exact ⟨1, 2, 3, by decide, by decide, by decide, by linarith, by linarith, by linarith⟩
    · exact ⟨3, 0, 4, by decide, by decide, by decide, by linarith, by linarith, by linarith⟩
    · rcases min_choice (max (v 0) (v 1)) (max (v 2) (v 3)) with hs | hs
      · exact ⟨3, 0, 1, by decide, by decide, by decide, by linarith, by linarith, by linarith⟩
      · exact ⟨0, 2, 3, by decide, by decide, by decide, by linarith, by linarith, by linarith⟩
    · exact ⟨3, 1, 4, by decide, by decide, by decide, by linarith, by linarith, by linarith⟩
    · rcases min_choice (max (v 0) (v 1)) (max (v 2) (v 3)) with hs | hs
      · exact ⟨3, 0, 1, by decide, by decide, by decide, by linarith, by linarith, by linarith⟩
      · exact ⟨1, 2, 3, by decide, by decide, by decide, by linarith, by linarith, by linarith⟩
  · rcases min_choice (max (v 0) (v 1)) (max (v 2) (v 3)) with hs | hs <;>
      rcases min_choice (v 4)
        (max (max (min (v 2) (v 3)) (min (v 0) (v 1)))
          (min (max (v 0) (v 1)) (max (v 2) (v 3)))) with hr | hr
    · exact ⟨0, 1, 4, by decide, by decide, by decide, by linarith, by linarith, by linarith⟩
    · rcases min_choice (v 2) (v 3) with hp | hp
      · exact ⟨0, 1, 2, by decide, by decide, by decide, by linarith, by linarith, by linarith⟩
      · exact ⟨0, 1, 3, by decide, by decide, by decide, by linarith, by linarith, by linarith⟩
    · exact ⟨2, 3, 4, by decide, by decide, by decide, by linarith, by linarith, by linarith⟩
    · rcases min_choice (v 0) (v 1) with hq | hq
      · exact ⟨2, 3, 0, by decide, by decide, by decide, by linarith, by linarith, by linarith⟩
      · exact ⟨2, 3, 1, by decide, by decide, by decide, by linarith, by linarith, by linarith⟩

/-- The median-of-5 network agrees with the naive sort-and-pick-middle
reference on every 5-element input. -/
lemma median5_eq_sortedMiddle (v : Fin 5 → ℚ) :
    median5 v = sortedMiddle (listOf v) := by
  symm
  apply sortedMiddle_eq_of_counts
  · simp [listOf]
  · obtain ⟨i, j, k, hij, hik, hjk, hi, hj, hk⟩ := med5_exists_three_le v
    exact three_counted _ v i j k hij hik hjk (by simpa using hi) (by simpa using hj)
      (by simpa using hk)
  · obtain ⟨i, j, k, hij, hik, hjk, hi, hj, hk⟩ := med5_exists_three_ge v
    exact three_counted _ v i j k hij hik hjk (by simpa using hi) (by simpa using hj)
      (by simpa using hk)

/-- Permuting a list does not change its sorted middle. -/
lemma sortedMiddle_perm {l l' : List ℚ} (h : l.Perm l') :
    sortedMiddle l = sortedMiddle l' := by
  unfold sortedMiddle
  congr 1
  exact List.eq_of_perm_of_sorted
    ((List.perm_insertionSort _ l).trans (h.trans (List.perm_insertionSort _ l').symm))
    (List.sorted_insertionSort _ l) (List.sorted_insertionSort _ l')

/-- Serializable snapshot of a running estimate, source struct `Sampled`
(lib.rs lines 63-68).  `u64` count modelled by `Nat`. -/
structure Sampled where
  mean : F
  sem : F
  n : ℕ
deriving DecidableEq, Repr

/-- Source `Sampled::zero()`: count 0, NaN mean and SEM. -/
def Sampled.zero : Sampled := ⟨F.nan, F.nan, 0⟩

/-- Model of the third-party `average::Variance` accumulator: the list of
values fed to `add`, in order.  Welford's online recurrence computes the
exact mean and the exact sum of squared deviations when the arithmetic is
exact, so in the rational model the observable state of the accumulator is
exactly the multiset of added values; we keep the full list. -/
def varMean (l : List ℚ) : F :=
  if l.length = 0 then F.nan else F.fin (l.sum / l.length)

/-- The accumulator's `error()` observable: the square root of
`sample_variance / n`, NaN when fewer than two samples were added.  The
floating-point square root is modelled by `Rat.sqrt` (exact on perfect
squares); no claim in this development depends on the value of a square
root. -/
def varError (l : List ℚ) : F :=
  if l.length ≤ 1 then F.nan
  else F.fin (Rat.sqrt
    ((l.map (fun x => (x - l.sum / l.length) ^ 2)).sum / (l.length - 1) / l.length))

/-- Source `impl From<average::Variance> for Sampled` (lib.rs lines 74-76):
mean and SEM pass through `r6` before storage, `n` is the count. -/
def Sampled.ofVariance (l : List ℚ) : Sampled :=
  ⟨r6 (varMean l), r6 (varError l), l.length⟩

/-- Source struct `Speed` (lib.rs lines 92-98): a `Sampled` plus a running
maximum of window medians. -/
structure Speed where
  stats : Sampled
  max : F
deriving DecidableEq, Repr

/-- Source `Speed::zero()`. -/
def Speed.zero : Speed := ⟨Sampled.zero, F.nan⟩

/-- Mutable state of the scan loop of `the_speed_in` (lib.rs lines 132-163):
accumulator, the 5-slot circular buffer `five`, the running maximum of
medians `max_s`, the write cursor `j`, the count `n` of accumulated finite
speeds, and the `before` flag. -/
structure SpState where
  stats : List ℚ
  five : Fin 5 → ℚ
  maxS : ℚ
  j : ℕ
  n : ℕ
  before : Bool

/-- Array store `five[j] = q` (the cursor `j` is always below 5). -/
def writeFive (five : Fin 5 → ℚ) (j : ℕ) (q : ℚ) : Fin 5 → ℚ :=
  fun i => if i.val = j then q else five i

/-- Body of the in-window branch of `the_speed_in` for a finite speed:
feed the accumulator, store into the circular buffer, advance the cursor
with wrap-around, and once five speeds have been seen update the running
maximum with the median of the buffer. -/
def addSpeed (st : SpState) (q : ℚ) : SpState :=
  let five := writeFive st.five st.j q
  let n := st.n + 1
  let j0 := st.j + 1
  let j1 := if j0 ≥ 5 then 0 else j0
  let maxS :=
    if n ≥ 5 then
      let s := median5 five
      if s > st.maxS then s else st.maxS
    else st.maxS
  ⟨st.stats ++ [q], five, maxS, j1, n, st.before⟩

/-- The scan loop of source fn `the_speed_in` (lib.rs lines 140-161).
Records with `time < t0` set `before`; the first record with `time > t1`
decides the result; all other records (including NaN times) are in-window
and contribute their speed when it is finite. -/
def speedLoop (t0 t1 : F) : SpState → List DataLine → Option Speed
  | _, [] => none
  | st, d :: rest =>
    if F.lt d.time t0 then
      speedLoop t0 t1 ⟨st.stats, st.five, st.maxS, st.j, st.n, true⟩ rest
    else if F.lt t1 d.time then
      if st.before = true ∧ 5 ≤ st.n then some ⟨Sampled.ofVariance st.stats, F.fin st.maxS⟩
      else none
    else
      if d.speed.isFinite then speedLoop t0 t1 (addSpeed st d.speed.toRat) rest
      else speedLoop t0 t1 st rest

/-- Initial loop state of `the_speed_in`: empty accumulator, zeroed buffer,
`max_s = 0`, cursor and count 0, `before = false`. -/
def SpState.init : SpState := ⟨[], fun _ => 0, 0, 0, 0, false⟩

/-- Source fn `the_speed_in` (lib.rs lines 132-163). -/
def the_speed_in (t0 t1 : F) (input : List DataLine) : Option Speed :=
  speedLoop t0 t1 SpState.init input

/-- Specification-side reading of the scan: the finite speeds of the
in-window records (records that neither satisfy `time < t0` nor `time > t1`),
in order, up to but not including the first record with `time > t1`. -/
def inWindowSpeeds (t0 t1 : F) : List DataLine → List ℚ
  | [] => []
  | d :: rest =>
    if F.lt d.time t0 then inWindowSpeeds t0 t1 rest
    else if F.lt t1 d.time then []
    else
      if d.speed.isFinite then d.speed.toRat :: inWindowSpeeds t0 t1 rest
      else inWindowSpeeds t0 t1 rest

/-- The 5-sample window of `l` starting at position `i`. -/
def windowAt (l : List ℚ) (i : ℕ) : List ℚ := (l.drop i).take 5

/-- The 5-sample median-filter evaluations over `l`: the sorted middle of
every consecutive window of five samples, in order. -/
def slidingMedians (l : List ℚ) : List ℚ :=
  (List.range (l.length - 4)).map (fun i => sortedMiddle (windowAt l i))

/-- One update of the running maximum, as in the source
(`if s > max_s { max_s = s; }`). -/
def maxStep (a s : ℚ) : ℚ := if s > a then s else a

/-- The running maximum of the median-filter evaluations, starting from the
source's initial value `0`. -/
def runningMax (l : List ℚ) : ℚ := (slidingMedians l).foldl maxStep 0

/-- The loop invariant tying the state of `speedLoop` to the list `hl` of
finite in-window speeds accumulated so far. -/
def BufInv (hl : List ℚ) (st : SpState) : Prop :=
  st.stats = hl ∧ st.n = hl.length ∧ st.j = hl.length % 5 ∧
  st.maxS = runningMax hl ∧
  ∀ m : ℕ, m < hl.length → hl.length ≤ m + 5 →
    st.five ⟨m % 5, Nat.mod_lt _ (by norm_num)⟩ = hl.getD m 0

/-- When at least five speeds have been accumulated, the circular buffer
holds exactly the last five of them (rotated), so the network median of the
buffer is the sorted middle of the most recent 5-sample window. -/
lemma buffer_median (hl : List ℚ) (five : Fin 5 → ℚ) (h5 : 5 ≤ hl.length)
    (hbuf : ∀ m : ℕ, m < hl.length → hl.length ≤ m + 5 →
      five ⟨m % 5, Nat.mod_lt _ (by norm_num)⟩ = hl.getD m 0) :
    median5 five = sortedMiddle (windowAt hl (hl.length - 5)) := by
  have hwlen : (windowAt hl (hl.length - 5)).length = 5 := by
    simp only [windowAt, List.length_take, List.length_drop]
    omega
  have key : listOf five = (windowAt hl (hl.length - 5)).rotate ((5 - hl.length % 5) % 5) := by
    apply List.ext_getElem
    · simp [listOf, List.length_rotate, hwlen]
    · intro i h1 h2
      have hi5 : i < 5 := by simpa [listOf] using h1
      have hrl : i < ((windowAt hl (hl.length - 5)).rotate ((5 - hl.length % 5) % 5)).length := h2
      rw [show ((windowAt hl (hl.length - 5)).rotate ((5 - hl.length % 5) % 5))[i] =
          ((windowAt hl (hl.length - 5)).rotate ((5 - hl.length % 5) % 5)).get ⟨i, hrl⟩ from rfl,
        List.get_rotate]
      have hlw : (windowAt hl (hl.length - 5)).length = 5 := hwlen
      have hd5 : (i + (5 - hl.length % 5) % 5) % (windowAt hl (hl.length - 5)).length < 5 := by
        rw [hlw]; omega
      rw [List.get_eq_getElem]
      have hgw : ∀ (d : ℕ) (hd : d < (windowAt hl (hl.length - 5)).length),
          (windowAt hl (hl.length - 5))[d] = hl.getD (hl.length - 5 + d) 0 := by
        intro d hd
        have hd' : d < 5 := by omega
        have hidx : hl.length - 5 + d < hl.length := by omega
        rw [List.getD_eq_getElem _ _ hidx]
        simp only [windowAt]
        rw [List.getElem_take, List.getElem_drop]
      rw [hgw]
      simp only [Fin.val_mk]
      rw [hlw]
      have hdlt : (i + (5 - hl.length % 5) % 5) % 5 < 5 := by omega
      have hm1 : hl.length - 5 + (i + (5 - hl.length % 5) % 5) % 5 < hl.length := by omega
      have hm2 : hl.length ≤ hl.length - 5 + (i + (5 - hl.length % 5) % 5) % 5 + 5 := by
        omega
      have hb := hbuf (hl.length - 5 + (i + (5 - hl.length % 5) % 5) % 5) hm1 hm2
      have hfin : (⟨(hl.length - 5 + (i + (5 - hl.length % 5) % 5) % 5) % 5,
          Nat.mod_lt _ (by norm_num)⟩ : Fin 5) = ⟨i, hi5⟩ := by
        apply Fin.ext
        simp only [Fin.val_mk]
        omega
      rw [hfin] at hb
      rw [show (listOf five)[i] = five ⟨i, hi5⟩ by
        interval_cases i <;> rfl]
      exact hb
  rw [median5_eq_sortedMiddle, key]
  exact sortedMiddle_perm (List.rotate_perm _ _)

/-- Appending one sample extends the running maximum of window medians by at
most one new window, the one ending at the new sample. -/
lemma runningMax_snoc (hl : List ℚ) (q : ℚ) :
    runningMax (hl ++ [q]) =
      if 5 ≤ hl.length + 1 then
        maxStep (runningMax hl) (sortedMiddle (windowAt (hl ++ [q]) (hl.length + 1 - 5)))
      else runningMax hl := by
  unfold runningMax slidingMedians
  by_cases h5 : 5 ≤ hl.length + 1
  · rw [if_pos h5]
    have hlen : (hl ++ [q]).length - 4 = (hl.length - 4) + 1 := by
      simp only [List.length_append, List.length_cons, List.length_nil]
      omega
    rw [hlen, List.range_succ, List.map_append, List.foldl_append]
    have hwin : ∀ i ∈ List.range (hl.length - 4),
        sortedMiddle (windowAt (hl ++ [q]) i) = sortedMiddle (windowAt hl i) := by
      intro i hi
      rw [List.mem_range] at hi
      have h1 : i ≤ hl.length := by omega
      have h2 : 5 ≤ (hl.drop i).length := by
        rw [List.length_drop]; omega
      unfold windowAt
      rw [List.drop_append_of_le_length h1, List.take_append_of_le_length h2]
    rw [List.map_congr_left hwin]
    have hidx : hl.length + 1 - 5 = hl.length - 4 := by omega
    rw [hidx]
    rfl
  · rw [if_neg h5]
    have h1 : (hl ++ [q]).length - 4 = 0 := by
      simp only [List.length_append, List.length_cons, List.length_nil]
      omega
    have h2 : hl.length - 4 = 0 := by omega
    rw [h1, h2]
    rfl

/-- One in-window finite speed preserves the loop invariant. -/
lemma BufInv_step {hl : List ℚ} {st : SpState} (h : BufInv hl st) (q : ℚ) :
    BufInv (hl ++ [q]) (addSpeed st q) := by
  obtain ⟨hstats, hn, hj, hmax, hbuf⟩ := h
  have hlen : (hl ++ [q]).length = hl.length + 1 := by simp
  refine ⟨by simp [addSpeed, hstats], by simp [addSpeed, hn, hlen], ?_, ?_, ?_⟩
  · simp only [addSpeed, hlen, hj]
    split_ifs with hge <;> omega
  · simp only [addSpeed, hn]
    rw [runningMax_snoc]
    by_cases hge : 5 ≤ hl.length + 1
    · rw [if_pos hge, if_pos hge]
      have hb5 : 5 ≤ (hl ++ [q]).length := by rw [hlen]; omega
      have hbuf' : ∀ m : ℕ, m < (hl ++ [q]).length → (hl ++ [q]).length ≤ m + 5 →
          writeFive st.five st.j q ⟨m % 5, Nat.mod_lt _ (by norm_num)⟩ =
            (hl ++ [q]).getD m 0 := by
        intro m hm1 hm2
        rw [hlen] at hm1 hm2
        rcases Nat.lt_or_ge m hl.length with hmlt | hmge
        · have hne : m % 5 ≠ st.j := by rw [hj]; omega
          rw [writeFive]
          simp only [Fin.val_mk]
          rw [if_neg hne, List.getD_append _ _ _ _ hmlt]
          exact hbuf m hmlt (by omega)
        · have hmeq : m = hl.length := by omega
          subst hmeq
          rw [writeFive]
          simp only [Fin.val_mk]
          rw [if_pos (by rw [hj]), List.getD_eq_getElem?_getD,
            List.getElem?_append_right (le_refl _)]
          simp
      have hmed := buffer_median (hl ++ [q]) (writeFive st.five st.j q) hb5 hbuf'
      rw [hlen] at hmed
      rw [hmed, hmax, maxStep]
    · rw [if_neg hge, if_neg hge]
      exact hmax
  · intro m hm1 hm2
    rw [hlen] at hm1 hm2
    rcases Nat.lt_or_ge m hl.length with hmlt | hmge
    · have hne : m % 5 ≠ st.j := by rw [hj]; omega
      show writeFive st.five st.j q ⟨m % 5, _⟩ = (hl ++ [q]).getD m 0
      rw [writeFive]
      simp only [Fin.val_mk]
      rw [if_neg hne, List.getD_append _ _ _ _ hmlt]
      exact hbuf m hmlt (by omega)
    · have hmeq : m = hl.length := by omega
      subst hmeq
      show writeFive st.five st.j q ⟨hl.length % 5, _⟩ = (hl ++ [q]).getD hl.length 0
      rw [writeFive]
      simp only [Fin.val_mk]
      rw [if_pos (by rw [hj]), List.getD_eq_getElem?_getD,
        List.getElem?_append_right (le_refl _)]
      simp

/-- Running maximum update is the lattice maximum. -/
lemma maxStep_eq_max (a s : ℚ) : maxStep a s = max a s := by
  rw [maxStep, if_flip_gt]
  exact max_comm s a

/-- Whenever the scan loop produces a `Speed`, its `max` field is the
running maximum (seeded with 0) of the window medians of all finite
in-window speeds: those already accumulated plus those still to come. -/
lemma speedLoop_max (t0 t1 : F) :
    ∀ (input : List DataLine) (hl : List ℚ) (st : SpState), BufInv hl st →
    ∀ sp : Speed, speedLoop t0 t1 st input = some sp →
    sp.max = F.fin (runningMax (hl ++ inWindowSpeeds t0 t1 input)) := by
  intro input
  induction input with
  | nil => intro hl st hinv sp hsp; simp [speedLoop] at hsp
  | cons d rest ih =>
    intro hl st hinv sp hsp
    rw [speedLoop] at hsp
    rw [inWindowSpeeds]
    by_cases h1 : F.lt d.time t0 = true
    · rw [if_pos h1] at hsp
      rw [if_pos h1]
      have hinv' : BufInv hl ⟨st.stats, st.five, st.maxS, st.j, st.n, true⟩ := hinv
      exact ih hl _ hinv' sp hsp
    · rw [if_neg h1] at hsp
      rw [if_neg h1]
      by_cases h2 : F.lt t1 d.time = true
      · rw [if_pos h2] at hsp
        rw [if_pos h2]
        obtain ⟨hstats, hn, hj, hmax, hbuf⟩ := hinv
        by_cases h3 : st.before = true ∧ 5 ≤ st.n
        · rw [if_pos h3] at hsp
          obtain rfl : (⟨Sampled.ofVariance st.stats, F.fin st.maxS⟩ : Speed) = sp :=
            Option.some_injective _ hsp
          simp only [List.append_nil]
          rw [hmax]
        · rw [if_neg h3] at hsp
          exact absurd hsp (by simp)
      · rw [if_neg h2] at hsp
        rw [if_neg h2]
        by_cases hf : d.speed.isFinite = true
        · rw [if_pos hf] at hsp
          rw [if_pos hf]
          have := ih (hl ++ [d.speed.toRat]) (addSpeed st d.speed.toRat)
            (BufInv_step hinv d.speed.toRat) sp hsp
          rw [this, List.append_assoc]
          rfl
        · rw [if_neg hf] at hsp
          rw [if_neg hf]
          exact ih hl st hinv sp hsp

/-- The initial state satisfies the invariant for the empty history. -/
lemma BufInv_init : BufInv [] SpState.init := by
  refine ⟨rfl, rfl, rfl, rfl, ?_⟩
  intro m hm
  simp at hm

lemma foldl_maxStep_eq (l : List ℚ) : ∀ a : ℚ, l.foldl maxStep a = l.foldl max a := by
  induction l with
  | nil => intro a; rfl
  | cons x xs ih => intro a; simp only [List.foldl_cons, maxStep_eq_max, ih]

/-- A record line with the given time and speed; the channels that
`the_speed_in` never reads are NaN. -/
def dl (t s : F) : DataLine := ⟨t, F.nan, s, F.nan, F.nan, F.nan⟩

/-- Counterexample input for the windowed-maximum claim with window
`[0, 10]`: one record before the window, five in-window records whose speed
is constantly `-1`, and one record past the window. -/
def cexC2 : List DataLine :=
  [dl (F.fin (-1)) (F.fin 3), dl (F.fin 1) (F.fin (-1)), dl (F.fin 2) (F.fin (-1)),
   dl (F.fin 3) (F.fin (-1)), dl (F.fin 4) (F.fin (-1)), dl (F.fin 5) (F.fin (-1)),
   dl (F.fin 11) (F.fin 0)]

/-- C2, counterexample: on `cexC2` the scan returns a `Speed` whose `max`
field is `0` (the initial value of the running maximum, never overwritten
because every median is negative), while the largest 5-sample median of the
finite in-window speeds is `-1`; the claimed equality fails. -/
theorem the_speed_in_max_counterexample :
    (the_speed_in (F.fin 0) (F.fin 10) cexC2).map Speed.max = some (F.fin 0) ∧
    (slidingMedians (inWindowSpeeds (F.fin 0) (F.fin 10) cexC2)).max? = some (-1) ∧
    (the_speed_in (F.fin 0) (F.fin 10) cexC2).map Speed.max
      ≠ ((slidingMedians (inWindowSpeeds (F.fin 0) (F.fin 10) cexC2)).max?).map F.fin := by
  refine ⟨by decide, by decide, by decide⟩

/-- C2 (amended): whenever `the_speed_in(t0, t1, input)` returns a Speed
value, its `max` field equals the running maximum, seeded with the initial
value 0, of the 5-sample median-filter evaluations over the finite in-window
speeds — i.e. the maximum of 0 and all the 5-sample medians, not the largest
median alone. -/
theorem the_speed_in_max_eq_runningMax (t0 t1 : F) (input : List DataLine)
    (h : (the_speed_in t0 t1 input).isSome = true) :
    (the_speed_in t0 t1 input).map Speed.max
      = some (F.fin ((slidingMedians (inWindowSpeeds t0 t1 input)).foldl max 0)) := by
  obtain ⟨sp, hsp⟩ := Option.isSome_iff_exists.mp h
  have hmax := speedLoop_max t0 t1 input [] SpState.init BufInv_init sp hsp
  rw [List.nil_append, runningMax, foldl_maxStep_eq] at hmax
  rw [the_speed_in] at hsp
  rw [the_speed_in, hsp]
  simp [hmax]

/-- Witness for the amended windowed-maximum theorem at the concrete input
`cexC2`: the hypothesis holds and the returned maximum is the 0-seeded
running maximum of the medians. -/
theorem the_speed_in_max_eq_runningMax_witness :
    (the_speed_in (F.fin 0) (F.fin 10) cexC2).isSome = true ∧
    (the_speed_in (F.fin 0) (F.fin 10) cexC2).map Speed.max
      = some (F.fin ((slidingMedians (inWindowSpeeds (F.fin 0) (F.fin 10) cexC2)).foldl max 0)) :=
  ⟨by decide, the_speed_in_max_eq_runningMax (F.fin 0) (F.fin 10) cexC2 (by decide)⟩

/-- In a well-formed window (`t0 <= t1`) no record can be both left of the
window and right of it. -/
lemma flt_excl {t0 t1 e : F} (hw : F.le t0 t1 = true) (h : F.lt e t0 = true) :
    F.lt t1 e = false := by
  cases t0 <;> cases t1 <;> cases e <;>
    simp_all [F.le, F.lt] <;> linarith

/-- The predicate selecting the records whose speed is accumulated by the
scan: not left of the window, not right of it, with a finite speed. -/
def accumP (t0 t1 : F) (d : DataLine) : Bool :=
  !F.lt d.time t0 && !F.lt t1 d.time && d.speed.isFinite

/-- The scan loop yields a result exactly when the remaining input splits as
`pre ++ d :: post` with no record of `pre` past the window, `d` past the
window, the `before` flag already set or set by some record of `pre`, and
the running count plus the accumulated records of `pre` at least 5. -/
lemma speedLoop_isSome_iff (t0 t1 : F) (hw : F.le t0 t1 = true) :
    ∀ (input : List DataLine) (st : SpState),
      (speedLoop t0 t1 st input).isSome = true ↔
        ∃ pre d post, input = pre ++ d :: post ∧
          (∀ e ∈ pre, F.lt t1 e.time = false) ∧ F.lt t1 d.time = true ∧
          (st.before = true ∨ ∃ e ∈ pre, F.lt e.time t0 = true) ∧
          5 ≤ st.n + pre.countP (accumP t0 t1) := by
  intro input
  induction input with
  | nil =>
    intro st
    constructor
    · intro h; simp [speedLoop] at h
    · rintro ⟨pre, d, post, heq, -⟩
      cases pre <;> simp_all
  | cons d0 rest ih =>
    intro st
    rw [speedLoop]
    by_cases h1 : F.lt d0.time t0 = true
    · rw [if_pos h1]
      have hnx : F.lt t1 d0.time = false := flt_excl hw h1
      have hacc : accumP t0 t1 d0 = false := by
        simp [accumP, h1]
      rw [ih ⟨st.stats, st.five, st.maxS, st.j, st.n, true⟩]
      constructor
      · rintro ⟨pre, d, post, heq, hpre, hd, -, hcount⟩
        refine ⟨d0 :: pre, d, post, by rw [heq, List.cons_append], ?_, hd, ?_, ?_⟩
        · intro e he
          rcases List.mem_cons.mp he with rfl | he'
          · exact hnx
          · exact hpre e he'
        · exact Or.inr ⟨d0, List.mem_cons_self _ _, h1⟩
        · rw [List.countP_cons, hacc]
          simpa using hcount
      · rintro ⟨pre, d, post, heq, hpre, hd, hbef, hcount⟩
        cases pre with
        | nil =>
          simp only [List.nil_append, List.cons.injEq] at heq
          obtain ⟨rfl, rfl⟩ := heq
          exact absurd hd (by rw [hnx]; simp)
        | cons e0 pre' =>
          simp only [List.cons_append, List.cons.injEq] at heq
          obtain ⟨rfl, rfl⟩ := heq
          refine ⟨pre', d, post, rfl, fun e he => hpre e (List.mem_cons_of_mem _ he),
            hd, Or.inl rfl, ?_⟩
          rw [List.countP_cons, hacc] at hcount
          simpa using hcount
    · rw [if_neg h1]
      have h1' : F.lt d0.time t0 = false := by
        cases hv : F.lt d0.time t0
        · rfl
        · exact absurd hv h1
      by_cases h2 : F.lt t1 d0.time = true
      · rw [if_pos h2]
        constructor
        · intro h
          split_ifs at h with h3
          · exact ⟨[], d0, rest, rfl, by simp, h2, Or.inl h3.1, by simpa using h3.2⟩
          · simp at h
        · rintro ⟨pre, d, post, heq, hpre, hd, hbef, hcount⟩
          cases pre with
          | nil =>
            simp only [List.nil_append, List.cons.injEq] at heq
            obtain ⟨rfl, rfl⟩ := heq
            have hb : st.before = true := by
              rcases hbef with hb | ⟨e, he, -⟩
              · exact hb
              · exact absurd he (List.not_mem_nil e)
            have hn : 5 ≤ st.n := by simpa using hcount
            rw [if_pos ⟨hb, hn⟩]
            rfl
          | cons e0 pre' =>
            simp only [List.cons_append, List.cons.injEq] at heq
            obtain ⟨rfl, rfl⟩ := heq
            exact absurd (hpre d0 (List.mem_cons_self _ _)) (by rw [h2]; simp)
      · rw [if_neg h2]
        have h2' : F.lt t1 d0.time = false := by
          cases hv : F.lt t1 d0.time
          · rfl
          · exact absurd hv h2
        by_cases hf : d0.speed.isFinite = true
        · rw [if_pos hf, ih (addSpeed st d0.speed.toRat)]
          have hacc : accumP t0 t1 d0 = true := by
            simp [accumP, h1', h2', hf]
          have hbe : (addSpeed st d0.speed.toRat).before = st.before := rfl
          have hne : (addSpeed st d0.speed.toRat).n = st.n + 1 := rfl
          rw [hbe, hne]
          constructor
          · rintro ⟨pre, d, post, heq, hpre, hd, hbef, hcount⟩
            refine ⟨d0 :: pre, d, post, by rw [heq, List.cons_append], ?_, hd, ?_, ?_⟩
            · intro e he
              rcases List.mem_cons.mp he with rfl | he'
              · exact h2'
              · exact hpre e he'
            · rcases hbef with hb | ⟨e, he, hlt⟩
              · exact Or.inl hb
              · exact Or.inr ⟨e, List.mem_cons_of_mem _ he, hlt⟩
            · rw [List.countP_cons, hacc]
              simp only [if_pos]
              omega
          · rintro ⟨pre, d, post, heq, hpre, hd, hbef, hcount⟩
            cases pre with
            | nil =>
              simp only [List.nil_append, List.cons.injEq] at heq
              obtain ⟨rfl, rfl⟩ := heq
              exact absurd hd (by rw [h2']; simp)
            | cons e0 pre' =>
              simp only [List.cons_append, List.cons.injEq] at heq
              obtain ⟨rfl, rfl⟩ := heq
              refine ⟨pre', d, post, rfl, fun e he => hpre e (List.mem_cons_of_mem _ he),
                hd, ?_, ?_⟩
              · rcases hbef with hb | ⟨e, he, hlt⟩
                · exact Or.inl hb
                · rcases List.mem_cons.mp he with rfl | he'
                  · exact absurd hlt (by rw [h1']; simp)
                  · exact Or.inr ⟨e, he', hlt⟩
              · rw [List.countP_cons, hacc] at hcount
                simp only [if_pos] at hcount
                omega
        · rw [if_neg hf, ih st]
          have hacc : accumP t0 t1 d0 = false := by
            simp only [accumP, Bool.and_eq_false_iff]
            right
            cases hv : d0.speed.isFinite
            · rfl
            · exact absurd hv hf
          constructor
          · rintro ⟨pre, d, post, heq, hpre, hd, hbef, hcount⟩
            refine ⟨d0 :: pre, d, post, by rw [heq, List.cons_append], ?_, hd, ?_, ?_⟩
            · intro e he
              rcases List.mem_cons.mp he with rfl | he'
              · exact h2'
              · exact hpre e he'
            · rcases hbef with hb | ⟨e, he, hlt⟩
              · exact Or.inl hb
              · exact Or.inr ⟨e, List.mem_cons_of_mem _ he, hlt⟩
            · rw [List.countP_cons, hacc]
              simpa using hcount
          · rintro ⟨pre, d, post, heq, hpre, hd, hbef, hcount⟩
            cases pre with
            | nil =>
              simp only [List.nil_append, List.cons.injEq] at heq
              obtain ⟨rfl, rfl⟩ := heq
              exact absurd hd (by rw [h2']; simp)
            | cons e0 pre' =>
              simp only [List.cons_append, List.cons.injEq] at heq
              obtain ⟨rfl, rfl⟩ := heq
              refine ⟨pre', d, post, rfl, fun e he => hpre e (List.mem_cons_of_mem _ he),
                hd, ?_, ?_⟩
              · rcases hbef with hb | ⟨e, he, hlt⟩
                · exact Or.inl hb
                · rcases List.mem_cons.mp he with rfl | he'
                  · exact absurd hlt (by rw [h1']; simp)
                  · exact Or.inr ⟨e, he', hlt⟩
              · rw [List.countP_cons, hacc] at hcount
                simpa using hcount

/-- C5: for a well-formed window, `the_speed_in` returns a result exactly
when the input splits as `pre ++ d :: post` where `d` is the first record
with `time > t1`, some record of `pre` has `time < t0`, and at least five
finite in-window speeds were accumulated among `pre`; in particular, when no
record has `time > t1` (no such split exists) the result is `none`. -/
theorem the_speed_in_some_iff (t0 t1 : F) (hw : F.le t0 t1 = true)
    (input : List DataLine) :
    (the_speed_in t0 t1 input).isSome = true ↔
      ∃ pre d post, input = pre ++ d :: post ∧
        (∀ e ∈ pre, F.lt t1 e.time = false) ∧ F.lt t1 d.time = true ∧
        (∃ e ∈ pre, F.lt e.time t0 = true) ∧
        5 ≤ pre.countP (accumP t0 t1) := by
  rw [the_speed_in, speedLoop_isSome_iff t0 t1 hw input SpState.init]
  constructor
  · rintro ⟨pre, d, post, heq, hpre, hd, hbef, hcount⟩
    refine ⟨pre, d, post, heq, hpre, hd, ?_, by simpa [SpState.init] using hcount⟩
    rcases hbef with hb | hb
    · exact absurd hb (by decide)
    · exact hb
  · rintro ⟨pre, d, post, heq, hpre, hd, hbef, hcount⟩
    exact ⟨pre, d, post, heq, hpre, hd, Or.inr hbef,
      by simpa [SpState.init] using hcount⟩

/-- Witness for the termination characterization at the concrete window
`[0, 10]` and input `cexC2`. -/
theorem the_speed_in_some_iff_witness :
    F.le (F.fin 0) (F.fin 10) = true ∧
    ((the_speed_in (F.fin 0) (F.fin 10) cexC2).isSome = true ↔
      ∃ pre d post, cexC2 = pre ++ d :: post ∧
        (∀ e ∈ pre, F.lt (F.fin 10) e.time = false) ∧
        F.lt (F.fin 10) d.time = true ∧
        (∃ e ∈ pre, F.lt e.time (F.fin 0) = true) ∧
        5 ≤ pre.countP (accumP (F.fin 0) (F.fin 10))) :=
  ⟨by decide, the_speed_in_some_iff (F.fin 0) (F.fin 10) (by decide) cexC2⟩

/-- C9: a record whose time is NaN is handled by the in-window branch of
the scan: the loop proceeds to the rest of the input without deciding a
result, the `before` flag is unchanged, and when the record's speed is
finite it is fed to the accumulator and written into the circular buffer. -/
theorem speedLoop_nan_time (t0 t1 : F) (st : SpState) (d : DataLine)
    (rest : List DataLine) (h : d.time = F.nan) :
    speedLoop t0 t1 st (d :: rest)
      = speedLoop t0 t1
          (if d.speed.isFinite then addSpeed st d.speed.toRat else st) rest ∧
    (if d.speed.isFinite then addSpeed st d.speed.toRat else st).before = st.before ∧
    (d.speed.isFinite = true →
      (addSpeed st d.speed.toRat).stats = st.stats ++ [d.speed.toRat] ∧
      (addSpeed st d.speed.toRat).five = writeFive st.five st.j d.speed.toRat ∧
      (addSpeed st d.speed.toRat).n = st.n + 1) := by
  have h1 : F.lt d.time t0 = false := by rw [h]; cases t0 <;> rfl
  have h2 : F.lt t1 d.time = false := by rw [h]; cases t1 <;> rfl
  refine ⟨?_, ?_, ?_⟩
  · rw [speedLoop, if_neg (by rw [h1]; simp), if_neg (by rw [h2]; simp)]
    by_cases hf : d.speed.isFinite = true
    · rw [if_pos hf, if_pos hf]
    · rw [if_neg hf, if_neg hf]
  · by_cases hf : d.speed.isFinite = true
    · rw [if_pos hf]; rfl
    · rw [if_neg hf]
  · intro hf
    exact ⟨rfl, rfl, rfl⟩

/-- Witness for the NaN-time behaviour: a concrete record with NaN time and
finite speed neither terminates the scan nor changes `before`. -/
theorem speedLoop_nan_time_witness :
    speedLoop (F.fin 0) (F.fin 10) SpState.init (dl F.nan (F.fin 2) :: [])
      = speedLoop (F.fin 0) (F.fin 10)
          (if (dl F.nan (F.fin 2)).speed.isFinite then
            addSpeed SpState.init (dl F.nan (F.fin 2)).speed.toRat
          else SpState.init) [] :=
  (speedLoop_nan_time (F.fin 0) (F.fin 10) SpState.init (dl F.nan (F.fin 2)) [] rfl).1

/-- C6: for every 5-element input, the median network `median5` returns the
middle element of the sorted arrangement of the five values — it agrees with
the naive sort-and-pick-middle reference on all inputs (all-equal and
strictly increasing inputs are instances of the universal statement). -/
theorem median5_eq_naive (v : Fin 5 → ℚ) :
    median5 v = sortedMiddle [v 0, v 1, v 2, v 3, v 4] :=
  median5_eq_sortedMiddle v

/-- Source struct `Coord` (lib.rs lines 165-174). -/
structure Coord where
  first : F
  last : F
  bound0 : F
  bound1 : F
  stats : Sampled
deriving DecidableEq, Repr

/-- Source `Coord::zero()`. -/
def Coord.zero : Coord := ⟨F.nan, F.nan, F.nan, F.nan, Sampled.zero⟩

/-- Mutable state of the scan loop of `the_coord` (lib.rs lines 198-227). -/
structure CoState where
  anything : Bool
  first : F
  last : F
  bound0 : F
  bound1 : F
  stats : List ℚ

/-- One iteration of the `the_coord` loop: non-finite values are skipped;
the first finite value seeds `first`/`bound0`/`bound1`; later finite values
update the running bounds; every finite value updates `last` and feeds the
accumulator. -/
def coordStep (st : CoState) (a : F) : CoState :=
  if a.isFinite then
    let st1 : CoState :=
      if !st.anything then
        ⟨true, a, st.last, a, a, st.stats⟩
      else
        ⟨st.anything, st.first, st.last,
          (if F.lt a st.bound0 then a else st.bound0),
          (if F.lt st.bound1 a then a else st.bound1), st.stats⟩
    ⟨st1.anything, st1.first, a, st1.bound0, st1.bound1, st1.stats ++ [a.toRat]⟩
  else st

/-- Initial loop state of `the_coord`: nothing seen, NaN fields. -/
def coordInit : CoState := ⟨false, F.nan, F.nan, F.nan, F.nan, []⟩

/-- Source fn `the_coord` (lib.rs lines 198-227): empty input or no finite
selected value yields the zero Coord. -/
def the_coord (f : DataLine → F) (input : List DataLine) : Coord :=
  if input.length = 0 then Coord.zero
  else
    let st := (input.map f).foldl coordStep coordInit
    if st.anything then ⟨st.first, st.last, st.bound0, st.bound1, Sampled.ofVariance st.stats⟩
    else Coord.zero

/-- The rational values of the finite elements of a list of doubles. -/
def finToRats (ys : List F) : List ℚ := (ys.filter F.isFinite).map F.toRat

/-- The finite selected values of the input, in file order. -/
def finVals (f : DataLine → F) (input : List DataLine) : List ℚ :=
  finToRats (input.map f)

/-- Invariant of the `the_coord` loop once at least one finite value has
been seen, in terms of the list `vals` of finite values consumed so far. -/
def CoInv (vals : List ℚ) (st : CoState) : Prop :=
  st.anything = true ∧ st.first = F.fin (vals.headD 0) ∧
  st.last = F.fin (vals.getLastD 0) ∧
  st.bound0 = F.fin (vals.foldl min (vals.headD 0)) ∧
  st.bound1 = F.fin (vals.foldl max (vals.headD 0)) ∧ st.stats = vals

/-- A finite double is the embedding of its rational value. -/
lemma F.eq_fin_toRat {y : F} (hf : y.isFinite = true) : y = F.fin y.toRat := by
  cases y <;> simp_all [F.isFinite, F.toRat]

lemma headD_append_of_ne_nil (l l' : List ℚ) (h : l ≠ []) :
    (l ++ l').headD 0 = l.headD 0 := by
  cases l with
  | nil => exact absurd rfl h
  | cons x xs => rfl

/-- One step of the loop preserves the invariant. -/
lemma coordStep_pres {vals : List ℚ} {st : CoState} (hv : vals ≠ [])
    (h : CoInv vals st) (y : F) :
    CoInv (vals ++ finToRats [y]) (coordStep st y) := by
  obtain ⟨ha, hf1, hl1, hb0, hb1, hs1⟩ := h
  by_cases hf : y.isFinite = true
  · have hy : y = F.fin y.toRat := F.eq_fin_toRat hf
    have htr : finToRats [y] = [y.toRat] := by simp [finToRats, hf]
    rw [htr]
    rw [coordStep, if_pos hf, ha]
    simp only [Bool.not_true, if_neg (by simp : ¬(false = true))]
    refine ⟨rfl, ?_, ?_, ?_, ?_, ?_⟩
    · show st.first = F.fin ((vals ++ [y.toRat]).headD 0)
      rw [headD_append_of_ne_nil _ _ hv]
      exact hf1
    · show y = F.fin ((vals ++ [y.toRat]).getLastD 0)
      rw [List.getLastD_concat]
      exact hy
    · show (if F.lt y st.bound0 then y else st.bound0)
        = F.fin ((vals ++ [y.toRat]).foldl min ((vals ++ [y.toRat]).headD 0))
      rw [headD_append_of_ne_nil _ _ hv, List.foldl_append, hb0, hy]
      simp only [F.lt, F.toRat, List.foldl_cons, List.foldl_nil, decide_eq_true_eq]
      split_ifs with hc <;> rw [min_def] <;> split_ifs <;> first | rfl | (congr 1; linarith)
    · show (if F.lt st.bound1 y then y else st.bound1)
        = F.fin ((vals ++ [y.toRat]).foldl max ((vals ++ [y.toRat]).headD 0))
      rw [headD_append_of_ne_nil _ _ hv, List.foldl_append, hb1, hy]
      simp only [F.lt, F.toRat, List.foldl_cons, List.foldl_nil, decide_eq_true_eq]
      split_ifs with hc <;> rw [max_def] <;> split_ifs <;> first | rfl | (congr 1; linarith)
    · show st.stats ++ [y.toRat] = vals ++ [y.toRat]
      rw [hs1]
  · have htr : finToRats [y] = [] := by
      simp only [finToRats, List.filter, hf]
      rfl
    rw [htr, List.append_nil, coordStep, if_neg hf]
    exact ⟨ha, hf1, hl1, hb0, hb1, hs1⟩

/-- Folding the loop over more values extends the invariant. -/
lemma coordFold_inv (ys : List F) : ∀ (vals : List ℚ) (st : CoState), vals ≠ [] →
    CoInv vals st → CoInv (vals ++ finToRats ys) (ys.foldl coordStep st) := by
  induction ys with
  | nil =>
    intro vals st hv h
    simpa [finToRats] using h
  | cons y ys ih =>
    intro vals st hv h
    have hsplit : finToRats (y :: ys) = finToRats [y] ++ finToRats ys := by
      by_cases hf : y.isFinite = true <;> simp [finToRats, List.filter, hf]
    rw [hsplit, ← List.append_assoc, List.foldl_cons]
    exact ih (vals ++ finToRats [y]) (coordStep st y) (by simp [hv])
      (coordStep_pres hv h y)

/-- Folding the loop from the initial state: either no value was finite and
the state is unchanged, or the invariant holds for the list of finite
values. -/
lemma coordFold_init (ys : List F) :
    (finToRats ys = [] ∧ ys.foldl coordStep coordInit = coordInit) ∨
    (finToRats ys ≠ [] ∧ CoInv (finToRats ys) (ys.foldl coordStep coordInit)) := by
  induction ys with
  | nil => exact Or.inl ⟨rfl, rfl⟩
  | cons y ys ih =>
    by_cases hf : y.isFinite = true
    · right
      obtain ⟨q, rfl⟩ : ∃ q, y = F.fin q := by
        cases y <;> simp_all [F.isFinite]
      have hsplit : finToRats (F.fin q :: ys) = q :: finToRats ys := by
        simp [finToRats, List.filter, F.isFinite, F.toRat]
      have hstep : coordStep coordInit (F.fin q)
          = ⟨true, F.fin q, F.fin q, F.fin q, F.fin q, [q]⟩ := rfl
      have hinv1 : CoInv [q]
          (⟨true, F.fin q, F.fin q, F.fin q, F.fin q, [q]⟩ : CoState) := by
        refine ⟨rfl, rfl, rfl, ?_, ?_, rfl⟩ <;> simp
      have := coordFold_inv ys [q] _ (by simp) hinv1
      rw [List.foldl_cons, hstep]
      constructor
      · rw [hsplit]; simp
      · rw [hsplit]
        simpa using this
    · have hsplit : finToRats (y :: ys) = finToRats ys := by
        simp only [finToRats, List.filter, hf]
      have hstep : coordStep coordInit y = coordInit := by
        rw [coordStep, if_neg hf]
      rw [List.foldl_cons, hstep, hsplit]
      exact ih

lemma foldl_min_le_init (l : List ℚ) : ∀ a : ℚ, l.foldl min a ≤ a := by
  induction l with
  | nil => intro a; exact le_refl a
  | cons x xs ih => intro a; exact (ih (min a x)).trans (min_le_left a x)

lemma foldl_min_le_mem (l : List ℚ) : ∀ (a q : ℚ), q ∈ l → l.foldl min a ≤ q := by
  induction l with
  | nil => intro a q hq; exact absurd hq (List.not_mem_nil q)
  | cons x xs ih =>
    intro a q hq
    rcases List.mem_cons.mp hq with rfl | hq'
    · exact (foldl_min_le_init xs (min a q)).trans (min_le_right a q)
    · exact ih (min a x) q hq'

lemma foldl_min_mem (l : List ℚ) : ∀ a : ℚ, l.foldl min a = a ∨ l.foldl min a ∈ l := by
  induction l with
  | nil => intro a; exact Or.inl rfl
  | cons x xs ih =>
    intro a
    rcases ih (min a x) with h | h
    · rcases min_choice a x with hm | hm
      · exact Or.inl (h.trans hm)
      · exact Or.inr (List.mem_cons.mpr (Or.inl (h.trans hm)))
    · exact Or.inr (List.mem_cons.mpr (Or.inr h))

lemma le_foldl_max_init (l : List ℚ) : ∀ a : ℚ, a ≤ l.foldl max a := by
  induction l with
  | nil => intro a; exact le_refl a
  | cons x xs ih => intro a; exact (le_max_left a x).trans (ih (max a x))

lemma foldl_max_ge_mem (l : List ℚ) : ∀ (a q : ℚ), q ∈ l → q ≤ l.foldl max a := by
  induction l with
  | nil => intro a q hq; exact absurd hq (List.not_mem_nil q)
  | cons x xs ih =>
    intro a q hq
    rcases List.mem_cons.mp hq with rfl | hq'
    · exact (le_max_right a q).trans (le_foldl_max_init xs (max a q))
    · exact ih (max a x) q hq'

lemma foldl_max_mem (l : List ℚ) : ∀ a : ℚ, l.foldl max a = a ∨ l.foldl max a ∈ l := by
  induction l with
  | nil => intro a; exact Or.inl rfl
  | cons x xs ih =>
    intro a
    rcases ih (max a x) with h | h
    · rcases max_choice a x with hm | hm
      · exact Or.inl (h.trans hm)
      · exact Or.inr (List.mem_cons.mpr (Or.inl (h.trans hm)))
    · exact Or.inr (List.mem_cons.mpr (Or.inr h))

lemma headD_mem {l : List ℚ} (h : l ≠ []) : l.headD 0 ∈ l := by
  cases l with
  | nil => exact absurd rfl h
  | cons x xs => exact List.mem_cons_self x xs

lemma getLastD_mem {l : List ℚ} (h : l ≠ []) : l.getLastD 0 ∈ l := by
  induction l with
  | nil => exact absurd rfl h
  | cons x xs ih =>
    cases xs with
    | nil => simp
    | cons y ys =>
      rw [List.getLastD_cons]
      exact List.mem_cons_of_mem x (ih (by simp))

/-- C10: for every input with at least one finite selected value, the Coord
returned by `the_coord` has `bound0` equal to the minimum and `bound1`
equal to the maximum of the finite selected values, `first` and `last`
equal to the first and last finite selected value, and consequently
`bound0 <= bound1`, `bound0 <= first <= bound1` and
`bound0 <= last <= bound1`. -/
theorem the_coord_spec (f : DataLine → F) (input : List DataLine)
    (h : finVals f input ≠ []) :
    (the_coord f input).first = F.fin ((finVals f input).headD 0) ∧
    (the_coord f input).last = F.fin ((finVals f input).getLastD 0) ∧
    (the_coord f input).bound0
      = F.fin ((finVals f input).foldl min ((finVals f input).headD 0)) ∧
    (the_coord f input).bound1
      = F.fin ((finVals f input).foldl max ((finVals f input).headD 0)) ∧
    ((finVals f input).foldl min ((finVals f input).headD 0)) ∈ finVals f input ∧
    (∀ q ∈ finVals f input,
      (finVals f input).foldl min ((finVals f input).headD 0) ≤ q) ∧
    ((finVals f input).foldl max ((finVals f input).headD 0)) ∈ finVals f input ∧
    (∀ q ∈ finVals f input,
      q ≤ (finVals f input).foldl max ((finVals f input).headD 0)) ∧
    F.le (the_coord f input).bound0 (the_coord f input).bound1 = true ∧
    F.le (the_coord f input).bound0 (the_coord f input).first = true ∧
    F.le (the_coord f input).first (the_coord f input).bound1 = true ∧
    F.le (the_coord f input).bound0 (the_coord f input).last = true ∧
    F.le (the_coord f input).last (the_coord f input).bound1 = true := by
  have hin : input ≠ [] := by
    intro hnil
    rw [hnil] at h
    exact h rfl
  have hlen : ¬(input.length = 0) := by
    intro h0
    exact hin (List.length_eq_zero.mp h0)
  rcases coordFold_init (input.map f) with ⟨hemp, -⟩ | ⟨hne, hinv⟩
  · exact absurd hemp h
  · obtain ⟨ha, hf1, hl1, hb0, hb1, -⟩ := hinv
    have hcoord : the_coord f input
        = ⟨((input.map f).foldl coordStep coordInit).first,
           ((input.map f).foldl coordStep coordInit).last,
           ((input.map f).foldl coordStep coordInit).bound0,
           ((input.map f).foldl coordStep coordInit).bound1,
           Sampled.ofVariance ((input.map f).foldl coordStep coordInit).stats⟩ := by
      rw [the_coord, if_neg hlen]
      simp only [ha, if_pos]
    have hmemh : (finVals f input).headD 0 ∈ finVals f input := headD_mem h
    have hmeml : (finVals f input).getLastD 0 ∈ finVals f input := getLastD_mem h
    have hminmem : (finVals f input).foldl min ((finVals f input).headD 0)
        ∈ finVals f input := by
      rcases foldl_min_mem (finVals f input) ((finVals f input).headD 0) with he | he
      · rw [he]; exact hmemh
      · exact he
    have hmaxmem : (finVals f input).foldl max ((finVals f input).headD 0)
        ∈ finVals f input := by
      rcases foldl_max_mem (finVals f input) ((finVals f input).headD 0) with he | he
      · rw [he]; exact hmemh
      · exact he
    have hminle : ∀ q ∈ finVals f input,
        (finVals f input).foldl min ((finVals f input).headD 0) ≤ q :=
      fun q hq => foldl_min_le_mem _ _ q hq
    have hmaxge : ∀ q ∈ finVals f input,
        q ≤ (finVals f input).foldl max ((finVals f input).headD 0) :=
      fun q hq => foldl_max_ge_mem _ _ q hq
    rw [hcoord]
    refine ⟨hf1, hl1, hb0, hb1, hminmem, hminle, hmaxmem, hmaxge, ?_, ?_, ?_, ?_, ?_⟩ <;>
      simp only [hf1, hl1, hb0, hb1, F.le, decide_eq_true_eq]
    · exact hminle _ hmaxmem
    · exact foldl_min_le_init _ _
    · exact hmaxge _ hmemh
    · exact hminle _ hmeml
    · exact hmaxge _ hmeml

/-- A record line carrying only an x coordinate. -/
def dx (x : F) : DataLine := ⟨F.nan, F.nan, F.nan, F.nan, x, F.nan⟩

/-- The specification's coordinate-tracker example input: x values
`[NaN, 3, 1, NaN, 5]`. -/
def cexC10 : List DataLine :=
  [dx F.nan, dx (F.fin 3), dx (F.fin 1), dx F.nan, dx (F.fin 5)]

/-- Witness for the coordinate-tracker theorem at the specification's own
example: selected values `[NaN, 3, 1, NaN, 5]` give `first = 3`, `last = 5`,
`bound0 = 1`, `bound1 = 5`. -/
theorem the_coord_spec_witness :
    finVals DataLine.x cexC10 ≠ [] ∧
    (the_coord DataLine.x cexC10).first = F.fin 3 ∧
    (the_coord DataLine.x cexC10).last = F.fin 5 ∧
    (the_coord DataLine.x cexC10).bound0 = F.fin 1 ∧
    (the_coord DataLine.x cexC10).bound1 = F.fin 5 := by
  have h := the_coord_spec DataLine.x cexC10 (by decide)
  exact ⟨by decide, by rw [h.1]; decide, by rw [h.2.1]; decide,
    by rw [h.2.2.1]; decide, by rw [h.2.2.2.1]; decide⟩

/-- Source fn `the_area` (lib.rs lines 29-31): the finite area values
collected into the accumulator. -/
def the_area (input : List DataLine) : List ℚ := finToRats (input.map DataLine.area)

/-- Source fn `the_midline` (lib.rs lines 33-35). -/
def the_midline (input : List DataLine) : List ℚ :=
  finToRats (input.map DataLine.midline)

/-- Source struct `Scores` (lib.rs lines 229-248). -/
structure Scores where
  id : ℕ
  t0 : F
  t1 : F
  area : Sampled
  midline : Sampled
  initial_speed : Option Speed
  calm_speed : Option Speed
  aroused_speed : Option Speed
  x : Coord
  y : Coord
deriving DecidableEq, Repr

/-- Source `Scores::zero()` (lib.rs lines 250-265). -/
def Scores.zero : Scores :=
  ⟨0, F.nan, F.nan, Sampled.zero, Sampled.zero, none, none, none, Coord.zero, Coord.zero⟩

/-- The `time` field at index `i` (in-bounds wherever the source indexes). -/
def timeAt (input : List DataLine) (i : ℕ) : F :=
  (input.getD i (dl F.nan F.nan)).time

/-- The first scanning loop of `the_everything`
(`while i0 < i1 && !input[i0].time.is_finite() { i0 += 1; }`).  The loop
advances `i0` at most `i1` times, so `i1` is passed as structural fuel;
with fuel `i1` the function computes exactly the loop's final `i0`. -/
def scanUpAux (input : List DataLine) (i1 : ℕ) : ℕ → ℕ → ℕ
  | 0, i0 => i0
  | fuel + 1, i0 =>
    if i0 < i1 ∧ ¬((timeAt input i0).isFinite = true) then
      scanUpAux input i1 fuel (i0 + 1)
    else i0

/-- The final `i0` of the first scanning loop of `the_everything`. -/
def scanUp (input : List DataLine) (i1 : ℕ) : ℕ := scanUpAux input i1 i1 0

/-- The second scanning loop of `the_everything`
(`while i1 >= i0 && !input[i1].time.is_finite() { i1 -= 1; }`), recursing
structurally on `i1`.  When the loop body would decrement `i1 = 0` the
`usize` subtraction underflows: in a debug build the program panics with a
subtract-with-overflow, and in a release build `i1` wraps to `2^64 - 1` and
the subsequent `input[i1]` indexing panics.  Either way the program aborts;
this outcome is modelled as `none`. -/
def scanDown (input : List DataLine) (i0 : ℕ) : ℕ → Option ℕ
  | 0 =>
    if 0 ≥ i0 ∧ ¬((timeAt input 0).isFinite = true) then none else some 0
  | i + 1 =>
    if i + 1 ≥ i0 ∧ ¬((timeAt input (i + 1)).isFinite = true) then
      scanDown input i0 i
    else some (i + 1)

/-- Source fn `the_everything` (lib.rs lines 311-331): empty input gives
the zero Scores; otherwise the scans locate the first and last finite
timestamps; if they cross, the zero Scores; otherwise the full composite.
`none` models the abort inside the second scan. -/
def the_everything (id : ℕ) (input : List DataLine) : Option Scores :=
  if input.length = 0 then some Scores.zero
  else
    let i0 := scanUp input (input.length - 1)
    match scanDown input i0 (input.length - 1) with
    | none => none
    | some i1 =>
      if i1 < i0 then some Scores.zero
      else
        some ⟨id, timeAt input i0, timeAt input i1,
          Sampled.ofVariance (the_area input), Sampled.ofVariance (the_midline input),
          the_speed_in (F.fin 10) (F.fin 20) input,
          the_speed_in (F.fin 270) (F.fin 290) input,
          the_speed_in (F.fin 440) (F.fin 450) input,
          the_coord DataLine.x input, the_coord DataLine.y input⟩

/-- C1 (code bug): `the_everything` returns the zero Scores for the empty
input and for a two-record input with no finite time, but on the sequence
consisting of exactly one record with a non-finite time the second scan
decrements `i1` past zero and the program aborts (`none`) instead of
returning the zero Scores. -/
theorem the_everything_nonfinite_cases :
    the_everything 0 [] = some Scores.zero ∧
    the_everything 0 [dl F.nan F.nan] = none ∧
    the_everything 0 [dl F.nan F.nan, dl F.nan F.nan] = some Scores.zero := by
  refine ⟨by decide, by decide, by decide⟩

/-- Modelled from the spec: rounding to `k` decimal digits — multiply by
`10^k`, round to the nearest integer (ties away from zero), divide back. -/
def roundToDecimals (k : ℕ) (q : ℚ) : ℚ := (roundAway (q * 10 ^ k) : ℚ) / 10 ^ k

/-- Modelled from the spec: rounding to `k` significant digits of a value
whose decimal exponent is `e` (that is, `10^e <= |q| < 10^(e+1)`): keep
`k` digits starting at the leading digit. -/
def sigRound (k : ℕ) (e : ℤ) (q : ℚ) : ℚ :=
  (roundAway (q * (10 : ℚ) ^ ((k : ℤ) - 1 - e)) : ℚ) / (10 : ℚ) ^ ((k : ℤ) - 1 - e)

/-- Concrete evaluations of `r6` used by the rounding claims. -/
lemma r6_concrete :
    r6 (F.fin (123456789 / 10 ^ 10)) = F.fin (12346 / 10 ^ 6) ∧
    r6 (F.fin (123456789 / 10 ^ 13)) = F.fin (123456789 / 10 ^ 13) := by
  have habs1 : |(123456789 / 10 ^ 10 : ℚ)| = 123456789 / 10 ^ 10 :=
    abs_of_pos (by norm_num)
  have habs2 : |(123456789 / 10 ^ 13 : ℚ)| = 123456789 / 10 ^ 13 :=
    abs_of_pos (by norm_num)
  have hfl1 : (⌊(123456789 : ℚ) / 10 ^ 10 * 10 ^ 6 + 1 / 2⌋ : ℤ) = 12346 := by
    rw [Int.floor_eq_iff] <;> norm_num
  constructor
  · rw [r6, if_pos (by rw [habs1]; norm_num), if_pos (by rw [habs1]; norm_num),
      roundAway, if_pos (by norm_num), hfl1]
    norm_num
  · rw [r6, if_pos (by rw [habs2]; norm_num), if_neg (by rw [habs2]; norm_num),
      if_neg (by rw [habs2]; norm_num)]

/-- C4, counterexample: at the claim's own example `0.0123456789` (decimal
exponent `-2`) the code rounds to 6 decimal digits, `0.012346`, which is not
the 6-significant-digit rounding `0.0123457`; and the claim's example
`0.0000123456789` has magnitude below `1e-4`, so the code leaves it
unchanged rather than rounding it to 8 decimal digits. -/
theorem r6_counterexample :
    ((10 : ℚ) ^ (-2 : ℤ) ≤ |(123456789 / 10 ^ 10 : ℚ)| ∧
      |(123456789 / 10 ^ 10 : ℚ)| < (10 : ℚ) ^ (-1 : ℤ)) ∧
    r6 (F.fin (123456789 / 10 ^ 10)) = F.fin (12346 / 10 ^ 6) ∧
    sigRound 6 (-2) (123456789 / 10 ^ 10) = 123457 / 10 ^ 7 ∧
    r6 (F.fin (123456789 / 10 ^ 10)) ≠ F.fin (sigRound 6 (-2) (123456789 / 10 ^ 10)) ∧
    r6 (F.fin (123456789 / 10 ^ 13)) = F.fin (123456789 / 10 ^ 13) ∧
    roundToDecimals 8 (123456789 / 10 ^ 13) ≠ 123456789 / 10 ^ 13 := by
  have habs1 : |(123456789 / 10 ^ 10 : ℚ)| = 123456789 / 10 ^ 10 :=
    abs_of_pos (by norm_num)
  have habs2 : |(123456789 / 10 ^ 13 : ℚ)| = 123456789 / 10 ^ 13 :=
    abs_of_pos (by norm_num)
  have hexp : ((6 : ℕ) : ℤ) - 1 - (-2 : ℤ) = (7 : ℤ) := by norm_num
  have hz : ((10 : ℚ) ^ (7 : ℤ)) = 10 ^ (7 : ℕ) := by norm_num
  have hfl2 : (⌊(123456789 : ℚ) / 10 ^ 10 * 10 ^ (7 : ℕ) + 1 / 2⌋ : ℤ) = 123457 := by
    rw [Int.floor_eq_iff] <;> norm_num
  have hfl3 : (⌊(123456789 : ℚ) / 10 ^ 13 * 10 ^ 8 + 1 / 2⌋ : ℤ) = 1235 := by
    rw [Int.floor_eq_iff] <;> norm_num
  have h1 : r6 (F.fin (123456789 / 10 ^ 10)) = F.fin (12346 / 10 ^ 6) :=
    r6_concrete.1
  have h2 : sigRound 6 (-2) (123456789 / 10 ^ 10) = 123457 / 10 ^ 7 := by
    rw [sigRound, hexp, hz, roundAway, if_pos (by norm_num), hfl2]
    norm_num
  have h3 : r6 (F.fin (123456789 / 10 ^ 13)) = F.fin (123456789 / 10 ^ 13) :=
    r6_concrete.2
  have h4 : roundToDecimals 8 (123456789 / 10 ^ 13) ≠ 123456789 / 10 ^ 13 := by
    rw [roundToDecimals, roundAway, if_pos (by norm_num), hfl3]
    norm_num
  refine ⟨⟨by rw [habs1]; norm_num, by rw [habs1]; norm_num⟩, h1, h2, ?_, h3, h4⟩
  rw [h1, h2]
  intro hcontra
  have := F.fin.inj hcontra
  norm_num at this

/-- C4 (amended): `r6` rounds finite values of magnitude in `[1e-2, 1e12)`
to 6 decimal digits (multiples of `1e-6`), values of magnitude in
`[1e-4, 1e-2)` to 8 decimal digits, and leaves values of magnitude below
`1e-4` or at least `1e12` unchanged; in particular
`r6(0.0123456789) = 0.012346`, `r6(0.0000123456789)` is unchanged (its
magnitude is below `1e-4`), and `r6(1e13) = 1e13`. -/
theorem r6_spec :
    (∀ q : ℚ, 1 / 10 ^ 2 ≤ |q| → |q| < 10 ^ 12 →
      r6 (F.fin q) = F.fin (roundToDecimals 6 q)) ∧
    (∀ q : ℚ, 1 / 10 ^ 4 ≤ |q| → |q| < 1 / 10 ^ 2 →
      r6 (F.fin q) = F.fin (roundToDecimals 8 q)) ∧
    (∀ q : ℚ, |q| < 1 / 10 ^ 4 → r6 (F.fin q) = F.fin q) ∧
    (∀ q : ℚ, 10 ^ 12 ≤ |q| → r6 (F.fin q) = F.fin q) ∧
    r6 (F.fin (123456789 / 10 ^ 10)) = F.fin (12346 / 10 ^ 6) ∧
    r6 (F.fin (123456789 / 10 ^ 13)) = F.fin (123456789 / 10 ^ 13) ∧
    r6 (F.fin (10 ^ 13)) = F.fin (10 ^ 13) := by
  refine ⟨?_, ?_, ?_, ?_, r6_concrete.1, r6_concrete.2, ?_⟩
  · intro q h1 h2
    rw [r6, if_pos h2, if_pos h1, roundToDecimals]
  · intro q h1 h2
    rw [r6, if_pos (h2.trans (by norm_num)), if_neg (not_le.mpr h2), if_pos h1,
      roundToDecimals]
  · intro q h1
    rw [r6, if_pos (h1.trans (by norm_num)), if_neg (not_le.mpr (h1.trans (by norm_num))),
      if_neg (not_le.mpr h1)]
  · intro q h1
    rw [r6, if_neg (not_lt.mpr h1)]
  · have habs : |(10 ^ 13 : ℚ)| = 10 ^ 13 := abs_of_pos (by norm_num)
    rw [r6, if_neg (by rw [habs]; norm_num)]

/-- Witness for the amended rounding theorem: the middle branch applied to
the concrete value `0.000123456789` rounds it to 8 decimal digits. -/
theorem r6_spec_witness :
    (1 / 10 ^ 4 ≤ |(123456789 / 10 ^ 12 : ℚ)| ∧ |(123456789 / 10 ^ 12 : ℚ)| < 1 / 10 ^ 2) ∧
    r6 (F.fin (123456789 / 10 ^ 12)) = F.fin (roundToDecimals 8 (123456789 / 10 ^ 12)) := by
  have habs : |(123456789 / 10 ^ 12 : ℚ)| = 123456789 / 10 ^ 12 := abs_of_pos (by norm_num)
  exact ⟨⟨by rw [habs]; norm_num, by rw [habs]; norm_num⟩,
    r6_spec.2.1 (123456789 / 10 ^ 12) (by rw [habs]; norm_num) (by rw [habs]; norm_num)⟩

/-- The whitespace class of the parser (space, tab, LF, CR). -/
def isNomSpace (c : Char) : Bool :=
  c = ' ' ∨ c = '\t' ∨ c = '\n' ∨ c = '\r'

def isDigitChar (c : Char) : Bool := '0' ≤ c ∧ c ≤ '9'

def digitsToNat (ds : List Char) : ℕ :=
  ds.foldl (fun a c => a * 10 + (c.toNat - 48)) 0

/-- The numeric value of a recognized float literal: sign, integer digits,
fraction digits, decimal exponent — exact in the rational model (the f64
conversion of the third-party parser rounds; no claim depends on that). -/
def floatVal (sgn : ℚ) (ip : ℕ) (frDs : List Char) (e : ℤ) : ℚ :=
  sgn * ((ip : ℚ) + (digitsToNat frDs : ℚ) / 10 ^ frDs.length) * (10 : ℚ) ^ e

/-- The optional exponent part of the float grammar
(`opt!(tuple!(e/E, opt!(sign), digit1))`): when the marker is present but no
digits follow, the whole optional group backtracks and consumes nothing. -/
def expPart (input : List Char) : ℤ × List Char :=
  match input with
  | c :: t =>
    if c = 'e' ∨ c = 'E' then
      let st : ℤ × List Char :=
        match t with
        | '+' :: u => (1, u)
        | '-' :: u => (-1, u)
        | _ => (1, t)
      let eds := st.2.takeWhile isDigitChar
      if eds.length = 0 then (0, input)
      else (st.1 * digitsToNat eds, st.2.drop eds.length)
    else (0, input)
  | [] => (0, input)

/-- Model of nom 4's streaming `double` on bytes: recognize
`sign? (digit1 (. digit0)? | . digit1) exp?` greedily and convert; a token
that runs to the very end of the input is `Incomplete` in the streaming
model, which `alt_complete!` treats as failure (the `double_at_end`
fallback below then handles it). -/
def nomDouble (input : List Char) : Option (List Char × F) :=
  let sr : ℚ × List Char :=
    match input with
    | '+' :: t => (1, t)
    | '-' :: t => (-1, t)
    | _ => (1, input)
  let intDs := sr.2.takeWhile isDigitChar
  let r2 := sr.2.drop intDs.length
  let core : Option ((ℕ × List Char) × List Char) :=
    if intDs.length = 0 then
      match r2 with
      | '.' :: r3 =>
        let fr := r3.takeWhile isDigitChar
        if fr.length = 0 then none
        else some ((0, fr), r3.drop fr.length)
      | _ => none
    else
      match r2 with
      | '.' :: r3 =>
        let fr := r3.takeWhile isDigitChar
        some ((digitsToNat intDs, fr), r3.drop fr.length)
      | _ => some ((digitsToNat intDs, []), r2)
  match core with
  | none => none
  | some ((ip, fr), r4) =>
    let er := expPart r4
    if er.2.isEmpty then none
    else some (er.2, F.fin (floatVal sr.1 ip fr er.1))

/-- A fixed-literal parser (`tag_s!`). -/
def tagP (t : List Char) (v : F) (input : List Char) : Option (List Char × F) :=
  if input.take t.length = t then some (input.drop t.length, v) else none

/-- Model of `double_at_end`: take the rest of the input and parse the whole
of it as a float literal (Rust's `str::parse::<f64>`; the special words
`inf`/`infinity`/`nan` of that parser are not modelled — the upstream
format's special values `NaN`/`Infinity`/`-Infinity` are matched by the tag
alternatives before this fallback). -/
def doubleAtEnd (input : List Char) : Option (List Char × F) :=
  let sr : ℚ × List Char :=
    match input with
    | '+' :: t => (1, t)
    | '-' :: t => (-1, t)
    | _ => (1, input)
  let intDs := sr.2.takeWhile isDigitChar
  let r2 := sr.2.drop intDs.length
  let core : Option ((ℕ × List Char) × List Char) :=
    if intDs.length = 0 then
      match r2 with
      | '.' :: r3 =>
        let fr := r3.takeWhile isDigitChar
        if fr.length = 0 then none
        else some ((0, fr), r3.drop fr.length)
      | _ => none
    else
      match r2 with
      | '.' :: r3 =>
        let fr := r3.takeWhile isDigitChar
        some ((digitsToNat intDs, fr), r3.drop fr.length)
      | _ => some ((digitsToNat intDs, []), r2)
  match core with
  | none => none
  | some ((ip, fr), r4) =>
    let er := expPart r4
    if er.2.isEmpty ∧ input.length ≠ 0 then
      some ([], F.fin (floatVal sr.1 ip fr er.1))
    else none

/-- Source parser `java_double` (parsing.rs lines 22-30): `alt_complete!` of
nom's `double`, the three special-value tags, and the whole-rest fallback. -/
def java_double (input : List Char) : Option (List Char × F) :=
  (nomDouble input).orElse fun _ =>
  (tagP "NaN".toList F.nan input).orElse fun _ =>
  (tagP "-Infinity".toList F.ninf input).orElse fun _ =>
  (tagP "Infinity".toList F.inf input).orElse fun _ =>
  doubleAtEnd input

/-- nom's `multispace`: one or more whitespace characters; in the streaming
model a whitespace run that reaches the end of the input is `Incomplete`,
which the surrounding `do_parse!` chain propagates as failure. -/
def multispace (input : List Char) : Option (List Char × Unit) :=
  let run := input.takeWhile isNomSpace
  if run.length = 0 then none
  else
    let rest := input.drop run.length
    if rest.isEmpty then none else some (rest, ())

/-- Source fn `token_end` (parsing.rs lines 32-46): at end of input succeed
consuming nothing; if the next byte is whitespace, skip to just after the
first LF in the input — or to the end of the input when there is no LF;
otherwise fail. -/
def token_end (input : List Char) : Option (List Char × Unit) :=
  match input with
  | [] => some ([], ())
  | c :: _ =>
    if c = ' ' ∨ c = '\t' ∨ c = '\n' ∨ c = '\r' then
      let n : ℕ :=
        match input.findIdx? (fun a => a = '\n') with
        | some k => k + 1
        | none => input.length
      some (input.drop n, ())
    else none

/-- Source parser `get_data_line` (parsing.rs lines 48-64): six
`java_double` fields separated by `multispace`, terminated by `token_end`. -/
def get_data_line (input : List Char) : Option (List Char × DataLine) := do
  let (r1, time) ← java_double input
  let (r2, _) ← multispace r1
  let (r3, area) ← java_double r2
  let (r4, _) ← multispace r3
  let (r5, speed) ← java_double r4
  let (r6, _) ← multispace r5
  let (r7, midline) ← java_double r6
  let (r8, _) ← multispace r7
  let (r9, x) ← java_double r8
  let (r10, _) ← multispace r9
  let (r11, y) ← java_double r10
  let (r12, _) ← token_end r11
  pure (r12, ⟨time, area, speed, midline, x, y⟩)

/-- The repetition loop of `many1!`: apply the parser while it succeeds and
consumes input; the input length bounds the number of iterations and is
passed as structural fuel. -/
def many1Aux (p : List Char → Option (List Char × DataLine)) :
    ℕ → List Char → List DataLine → List Char × List DataLine
  | 0, input, acc => (input, acc)
  | fuel + 1, input, acc =>
    match p input with
    | none => (input, acc)
    | some (rest, v) =>
      if rest.length < input.length then many1Aux p fuel rest (acc ++ [v])
      else (input, acc)

/-- Source parser `get_data_lines` (parsing.rs lines 66-68):
`many1!(get_data_line)`. -/
def get_data_lines (input : List Char) : Option (List Char × List DataLine) :=
  let r := many1Aux get_data_line (input.length + 1) input []
  if r.2.length = 0 then none else some r

/-- The counterexample buffer: two back-to-back valid six-field records on
one line, separated only by single spaces. -/
def cexC3 : List Char := "1 2 3 4 5 6 7 8 9 10 11 12".toList

/-- C3, counterexample: on a buffer holding two back-to-back valid records
separated only by spaces on the same line, `get_data_lines` parses exactly
one `DataLine`, not two: `token_end` discards the whole remainder of the
line after the sixth field. -/
theorem get_data_lines_two_records_one_line :
    (get_data_lines cexC3).map (fun r => r.2.length) = some 1 ∧
    (get_data_lines cexC3).map (fun r => r.2.length) ≠ some 2 := by
  refine ⟨by decide, by decide⟩

/-- C3 (amended): whitespace after the sixth numeric field is not an
ordinary inter-record separator — `token_end` discards everything up to the
next newline (or the end of the input).  On the buffer with two
back-to-back records separated only by spaces on one line, `get_data_lines`
consumes the whole buffer and produces exactly one `DataLine`, the first
record `(1, 2, 3, 4, 5, 6)`; the second record's content is discarded. -/
theorem get_data_lines_discards_rest_of_line :
    ∃ d : DataLine, get_data_lines cexC3 = some ([], [d]) ∧
      d.time = F.fin 1 ∧ d.area = F.fin 2 ∧ d.speed = F.fin 3 ∧
      d.midline = F.fin 4 ∧ d.x = F.fin 5 ∧ d.y = F.fin 6 := by
  refine ⟨_, rfl, ?_, ?_, ?_, ?_, ?_, ?_⟩
  · exact (show (F.fin (floatVal 1 1 [] 0) : F) = F.fin 1 by
      norm_num [floatVal, digitsToNat])
  · exact (show (F.fin (floatVal 1 2 [] 0) : F) = F.fin 2 by
      norm_num [floatVal, digitsToNat])
  · exact (show (F.fin (floatVal 1 3 [] 0) : F) = F.fin 3 by
      norm_num [floatVal, digitsToNat])
  · exact (show (F.fin (floatVal 1 4 [] 0) : F) = F.fin 4 by
      norm_num [floatVal, digitsToNat])
  · exact (show (F.fin (floatVal 1 5 [] 0) : F) = F.fin 5 by
      norm_num [floatVal, digitsToNat])
  · exact (show (F.fin (floatVal 1 6 [] 0) : F) = F.fin 6 by
      norm_num [floatVal, digitsToNat])

/-- Rust `Display` for one `f64`, at token granularity: a double renders as
a single token containing no whitespace ("NaN", "inf", "-inf", or a decimal
form; the exact digit string of the finite rendering is not relied on by
any claim, only that it is one whitespace-free token). -/
def F.render : F → String
  | F.nan => "NaN"
  | F.inf => "inf"
  | F.ninf => "-inf"
  | F.fin q => toString q

/-- Tokens of `impl Display for Sampled` (lib.rs lines 78-82), format
string `"{} {} {}"`: each placeholder is one whitespace-free token and the
separators are single spaces. -/
def Sampled.tokens (s : Sampled) : List String :=
  [toString s.n, F.render s.mean, F.render s.sem]

/-- Tokens of `impl Display for Speed` (lib.rs lines 118-122), format
string `"{} {}"` with the `Sampled` rendering inlined. -/
def Speed.tokens (sp : Speed) : List String := sp.stats.tokens ++ [F.render sp.max]

/-- Tokens of `impl Display for Coord` (lib.rs lines 182-186), format
string `"{} {} {} {} {}"`. -/
def Coord.tokens (c : Coord) : List String :=
  [F.render c.first, F.render c.last, F.render c.bound0, F.render c.bound1]
    ++ c.stats.tokens

/-- Tokens of `impl Display for Scores` (lib.rs lines 267-278): ten
placeholders, the three optional speeds rendered as `Speed::zero()` when
absent. -/
def Scores.tokens (sc : Scores) : List String :=
  [toString sc.id, F.render sc.t0, F.render sc.t1]
    ++ sc.area.tokens ++ sc.midline.tokens
    ++ (sc.initial_speed.getD Speed.zero).tokens
    ++ (sc.calm_speed.getD Speed.zero).tokens
    ++ (sc.aroused_speed.getD Speed.zero).tokens
    ++ sc.x.tokens ++ sc.y.tokens

/-- Source `impl Entitled for Sampled` (lib.rs lines 84-90): appends
`<specifier>n <specifier>mean <specifier>sem` to the buffer. -/
def Sampled.push_subtitle (s : Sampled) (specifier out : String) : String :=
  out ++ specifier ++ "n " ++ specifier ++ "mean " ++ specifier ++ "sem"

/-- Source `impl Entitled for Speed` (lib.rs lines 124-130). -/
def Speed.push_subtitle (sp : Speed) (specifier out : String) : String :=
  sp.stats.push_subtitle specifier out ++ " " ++ specifier ++ "max"

/-- Source `impl Entitled for Coord` (lib.rs lines 188-196). -/
def Coord.push_subtitle (c : Coord) (specifier out : String) : String :=
  c.stats.push_subtitle specifier
    (out ++ specifier ++ "first " ++ specifier ++ "last " ++ specifier ++ "smallest "
      ++ specifier ++ "largest ")

/-- Source `impl Entitled for Scores` (lib.rs lines 280-309).  The branch
for a non-empty specifier maintains a scratch buffer `sub` that is
truncated back to the specifier before each sub-prefix is pushed; that
truncate-and-push sequence is the concatenation `specifier ++ name`.  The
source's output-buffer parameter `to` is named `out` here (`to` is a
reserved word). -/
def Scores.push_subtitle (sc : Scores) (specifier out : String) : String :=
  let to1 := out ++ specifier ++ "id " ++ specifier ++ "t0 " ++ specifier ++ "t1"
  let mock := Speed.zero
  if specifier.length = 0 then
    let t2 := sc.area.push_subtitle "area-" (to1 ++ " ")
    let t3 := sc.midline.push_subtitle "midline-" (t2 ++ " ")
    let t4 := mock.push_subtitle "initial-" (t3 ++ " ")
    let t5 := mock.push_subtitle "calm-" (t4 ++ " ")
    let t6 := mock.push_subtitle "aroused-" (t5 ++ " ")
    let t7 := sc.x.push_subtitle "x-" (t6 ++ " ")
    sc.y.push_subtitle "y-" (t7 ++ " ")
  else
    let t2 := sc.area.push_subtitle (specifier ++ "area-") (to1 ++ " ")
    let t3 := sc.midline.push_subtitle (specifier ++ "midline-") (t2 ++ " ")
    let t4 := mock.push_subtitle (specifier ++ "initial-") (t3 ++ " ")
    let t5 := mock.push_subtitle (specifier ++ "calm-") (t4 ++ " ")
    let t6 := mock.push_subtitle (specifier ++ "aroused-") (t5 ++ " ")
    let t7 := sc.x.push_subtitle (specifier ++ "x-") (t6 ++ " ")
    sc.y.push_subtitle (specifier ++ "y-") (t7 ++ " ")

/-- Trait method `title` of `Entitled` (lib.rs lines 17-26): push the
subtitle with the empty specifier into an empty buffer. -/
def Scores.title (sc : Scores) : String := sc.push_subtitle "" ""

/-- Splitting a character list at every space (the token decomposition of a
space-separated header row). -/
def splitSpacesAux : List Char → List Char → List (List Char)
  | [], cur => [cur.reverse]
  | c :: t, cur =>
    if c = ' ' then cur.reverse :: splitSpacesAux t []
    else splitSpacesAux t (c :: cur)

/-- The number of space-separated tokens of a string. -/
def spaceTokenCount (s : String) : ℕ := (splitSpacesAux s.toList []).length

/-- C8: for every Scores value, with any combination of the optional speed
fields present or absent, the rendered row has exactly as many
whitespace-separated tokens as the generated header has space-separated
tokens (35 of each), so the tokens are in 1:1 positional correspondence. -/
theorem scores_title_display_parity (sc : Scores) :
    (Scores.tokens sc).length = spaceTokenCount (Scores.title sc) ∧
    (Scores.tokens sc).length = 35 := by
  have hL : (Scores.tokens sc).length = 35 := by
    simp [Scores.tokens, Speed.tokens, Sampled.tokens, Coord.tokens]
  have hR : spaceTokenCount (Scores.title sc) = 35 := rfl
  exact ⟨hL.trans hR.symm, hL⟩

/-- Model of a JSON value, the output format of the serializer used by the
program (serde_json). -/
inductive Json where
  | null : Json
  | num : ℚ → Json
  | str : String → Json
  | arr : List Json → Json
  | obj : List (String × Json) → Json

/-- Serialization of one `f64` by serde_json: JSON has no NaN or Infinity,
and serde_json serializes every non-finite double as `null`. -/
def jsonOfF : F → Json
  | F.fin q => Json.num q
  | _ => Json.null

/-- Deserialization of one `f64` by serde_json: only a JSON number is
accepted; `null` (and anything else) fails with an invalid-type error. -/
def jsonToF : Json → Option F
  | Json.num q => some (F.fin q)
  | _ => none

/-- Field lookup in a serialized JSON object. -/
def lookupField (l : List (String × Json)) (k : String) : Option Json :=
  (l.find? (fun p => p.1 = k)).map Prod.snd

/-- `#[derive(Serialize)]` for `Sampled`: an object with the fields in
declaration order. -/
def Sampled.toJson (s : Sampled) : Json :=
  Json.obj [("mean", jsonOfF s.mean), ("sem", jsonOfF s.sem), ("n", Json.num s.n)]

/-- `#[derive(Deserialize)]` for `Sampled`: all three fields must be
present and well-typed; a `null` where an `f64` is expected is an error. -/
def Sampled.fromJson (j : Json) : Option Sampled :=
  match j with
  | Json.obj l => do
    let jm ← lookupField l "mean"
    let m ← jsonToF jm
    let js ← lookupField l "sem"
    let s ← jsonToF js
    let jn ← lookupField l "n"
    let n ← match jn with
      | Json.num q => if q.den = 1 ∧ 0 ≤ q.num then some q.num.toNat else none
      | _ => none
    pure ⟨m, s, n⟩
  | _ => none

/-- C7, counterexample: serializing the zero `Sampled` (NaN mean and SEM)
produces `null` for both statistics, and deserializing that output fails —
it does not yield a `Sampled` with NaN mean and SEM, so NaN does not
round-trip through serialization. -/
theorem sampled_zero_roundtrip_counterexample :
    ¬ ∃ s : Sampled, Sampled.fromJson (Sampled.toJson Sampled.zero) = some s ∧
      s.mean = F.nan ∧ s.sem = F.nan := by
  rintro ⟨s, hs, -⟩
  rw [show Sampled.fromJson (Sampled.toJson Sampled.zero) = none from rfl] at hs
  exact Option.noConfusion hs

/-- C7 (amended): a `Sampled` with `n = 0` as produced by `Sampled::zero`
has NaN mean and SEM; serializing it emits `null` for mean and sem (JSON
cannot represent NaN), and deserializing the serialized form fails rather
than yielding NaN again. -/
theorem sampled_zero_serde :
    Sampled.zero.mean = F.nan ∧ Sampled.zero.sem = F.nan ∧ Sampled.zero.n = 0 ∧
    Sampled.toJson Sampled.zero
      = Json.obj [("mean", Json.null), ("sem", Json.null), ("n", Json.num 0)] ∧
    Sampled.fromJson (Sampled.toJson Sampled.zero) = none :=
  ⟨rfl, rfl, rfl, rfl, rfl⟩
